import Mathlib

/-!
Verification of the pseudoclock codec and smart-programming cache of
`FPGADevice.py` (labscript FPGA device skeleton).

The Python functions are embedded shallowly:

* `reduce_clock_instructions` — merges consecutive equal-period instructions,
  turns `'WAIT'` markers into `{step 0, reps 1}` dictionaries;
* `convert_to_clocks_and_toggles` — turns a reduced step/reps list into the
  hardware (n_clocks, toggles) run-length form;
* `expand_clock` — turns an (n_clocks, toggles) list back into toggle times;
* `FPGADeviceWorker.transition_to_buffered` — the smart-programming cache and
  final-state computation of the BLACS worker;
* `OutputIntermediateDevice.add_device` — connection-string validation.

Python machine integers are `ℤ`, floats are modelled as `ℚ` (the values used
by the claims are exactly representable and the arithmetic involved on them
is exact in IEEE double precision, e.g. `0.1 * 10 == 1.0` and
`0.2 * 10 == 2.0`), `int(x)` is truncation toward zero, and raised
exceptions are `Except.error` values that abort the rest of the call.
-/

namespace FPGADevice

/-- Python's `int()` applied to a (finite) numeric value: truncation toward
zero, which on a normalised fraction is the T-division of the numerator by
the denominator. All uses in the source apply it to non-negative products,
where it agrees with the floor. -/
def pyInt (q : ℚ) : ℤ := q.num.tdiv q.den

/-- A `{'step': ..., 'reps': ...}` dictionary, as produced by
`Pseudoclock.generate_code` and by `reduce_clock_instructions`. -/
structure PulseInst where
  step : ℚ
  reps : ℤ
deriving DecidableEq, Repr

/-- An element of a raw `.clock` list: either the string marker `'WAIT'` or a
step/reps dictionary. -/
inductive Instr where
  | wait : Instr
  | inst (step : ℚ) (reps : ℤ) : Instr
deriving DecidableEq, Repr

/-- View a reduced instruction again as a raw clock element (a step/reps
dictionary is never equal to the string `'WAIT'`, so re-reducing treats every
element of a reduced list as an ordinary instruction). -/
def PulseInst.toInstr (p : PulseInst) : Instr := .inst p.step p.reps

/-- One iteration of the loop body of `reduce_clock_instructions`
(`FPGADevice.py`, lines 55-66): `'WAIT'` appends `{step 0, reps 1}` and moves
on; otherwise the instruction is merged into the last output element when the
periods agree and appended when they do not. -/
def reduceStep (reduced_instructions : List PulseInst) (instruction : Instr) :
    List PulseInst :=
  match instruction with
  | .wait => reduced_instructions ++ [⟨0, 1⟩]
  | .inst step reps =>
      match reduced_instructions.getLast? with
      | some last =>
          if last.step = step then
            reduced_instructions.dropLast ++ [⟨last.step, last.reps + reps⟩]
          else
            reduced_instructions ++ [⟨step, reps⟩]
      | none => reduced_instructions ++ [⟨step, reps⟩]

/-- `reduce_clock_instructions` (`FPGADevice.py`, lines 51-68): combine
consecutive instructions with the same period. -/
def reduce_clock_instructions (clock : List Instr) : List PulseInst :=
  clock.foldl reduceStep []

/-- The output object handed to `convert_to_clocks_and_toggles`: a
`DigitalOut` (with its `raw_output` sample array), an `AnalogOut`, or an
instance of any other class (identified by `__class__.__name__`). -/
inductive Output where
  | digitalOut (raw_output : List ℤ) : Output
  | analogOut (raw_output : List ℚ) : Output
  | other (className : String) : Output
deriving DecidableEq, Repr

/-- The `LabscriptError` message raised for an unsupported output type
(`FPGADevice.py`, line 100). -/
def unsupportedMsg (className : String) : String :=
  "Conversion to clocks and toggles not supported for output type '"
    ++ className ++ "'."

/-- The `initial_state` computation of `convert_to_clocks_and_toggles`
(`FPGADevice.py`, lines 94-100): `raw_output[0]` for a `DigitalOut` (an
`IndexError` if the array is empty), the constant `0` for an `AnalogOut`,
and a `LabscriptError` for any other output type. -/
def initialState : Output → Except String ℤ
  | .digitalOut raw =>
      match raw with
      | [] => .error "IndexError: list index out of range"
      | s :: _ => .ok s
  | .analogOut _ => .ok 0
  | .other className => .error (unsupportedMsg className)

/-- The tick emitted for an instruction after the first
(`FPGADevice.py`, lines 114-117): `toggles = reps - 1`,
`n_clocks = int(step * clock_limit) - 1`. -/
def tickOf (clock_limit : ℚ) (t : PulseInst) : ℤ × ℤ :=
  (pyInt (t.step * clock_limit) - 1, t.reps - 1)

/-- `convert_to_clocks_and_toggles` (`FPGADevice.py`, lines 71-119).
The first element is special: it emits `(int(step * clock_limit) - 1,
initial_state)` and has one rep consumed (`tick['reps'] -= 1`); if reps
remain (`tick['reps'] != 0`) it then also emits an ordinary tick for its
residual. Every later element emits one ordinary tick. The `initial_state`
dispatch happens inside the `i == 0` branch, so an empty list returns `[]`
without inspecting the output type. -/
def convert_to_clocks_and_toggles (clock : List PulseInst) (output : Output)
    (clock_limit : ℚ) : Except String (List (ℤ × ℤ)) :=
  match clock with
  | [] => .ok []
  | first :: rest =>
      match initialState output with
      | .error e => .error e
      | .ok s =>
          let n_clocks := pyInt (first.step * clock_limit) - 1
          let residual : List (ℤ × ℤ) :=
            if first.reps - 1 = 0 then []
            else [tickOf clock_limit ⟨first.step, first.reps - 1⟩]
          .ok ((n_clocks, s) :: (residual ++ rest.map (tickOf clock_limit)))

/-- The inner loop of `expand_clock` (`FPGADevice.py`, lines 136-142): for
each of the `toggles` iterations, the candidate time `times[-1] +
n_clocks / clock_limit` is appended unless it exceeds `stop_time`, in which
case the loop breaks. -/
def expandTick (n_clocks : ℤ) (clock_limit stop_time : ℚ) :
    ℕ → List ℚ → List ℚ
  | 0, times => times
  | t + 1, times =>
      let new_time := times.getLastD 0 + (n_clocks : ℚ) / clock_limit
      if stop_time < new_time then times
      else expandTick n_clocks clock_limit stop_time t (times ++ [new_time])

/-- The outer loop of `expand_clock` over the ticks after the first. -/
def expandAux (clock_limit stop_time : ℚ) :
    List (ℤ × ℤ) → List ℚ → List ℚ
  | [], times => times
  | (n_clocks, toggles) :: rest, times =>
      expandAux clock_limit stop_time rest
        (expandTick n_clocks clock_limit stop_time toggles.toNat times)

/-- `expand_clock` (`FPGADevice.py`, lines 122-144): the first tick
contributes the single unchecked time `n_clocks / clock_limit`; every later
tick contributes up to `toggles` times, each checked against `stop_time`
(`range(toggles)` is empty for non-positive toggle counts, hence `toNat`). -/
def expand_clock (clock : List (ℤ × ℤ)) (clock_limit stop_time : ℚ) :
    List ℚ :=
  match clock with
  | [] => []
  | (n_clocks, _) :: rest =>
      expandAux clock_limit stop_time rest [(n_clocks : ℚ) / clock_limit]

/-- Python `dict.get` on a model dictionary (an association list with the
insertion order of its keys). -/
def dictGet {α : Type _} : List (String × α) → String → Option α
  | [], _ => none
  | (k', v) :: rest, k => if k' = k then some v else dictGet rest k

/-- Python `d[k] = v` on a model dictionary: overwrite in place when the key
is present, append otherwise. -/
def dictSet {α : Type _} : List (String × α) → String → α → List (String × α)
  | [], k, v => [(k, v)]
  | (k', v') :: rest, k, v =>
      if k' = k then (k, v) :: rest else (k', v') :: dictSet rest k v

/-- The worker's smart-programming cache (`FPGADevice.py`, line 554), limited
to the `'clocks'` and `'data'` entries used by `transition_to_buffered`
(the `'output_values'` entry is only read by `program_manual`). -/
structure SmartCache where
  clocks : List (String × List (ℤ × ℤ))
  data : List (String × List ℚ)
deriving DecidableEq, Repr

/-- A value of the `final_state` dictionary: the digital branch stores the
integer `clock[0]['toggles'] + (n_toggles % 2)`, the analog branch stores
the float `data[-1]`. -/
inductive FinalVal where
  | int (z : ℤ) : FinalVal
  | rat (q : ℚ) : FinalVal
deriving DecidableEq, Repr

/-- A successful call on the hardware interface made by
`transition_to_buffered`: `send_pseudoclock(0, i, clock)` or
`send_analog_data(0, i, range_min, range_max, data)`. -/
inductive SendEvent where
  | pseudoclock (channel_number : ℕ) (output : String)
      (clock : List (ℤ × ℤ)) : SendEvent
  | analogData (channel_number : ℕ) (output : String)
      (range_min range_max : ℚ) (data : List ℚ) : SendEvent
deriving DecidableEq, Repr

/-- The pseudoclock loop of `transition_to_buffered` (`FPGADevice.py`,
lines 609-622). `pcOk` abstracts the external transport: `pcOk output =
false` means `send_pseudoclock` raises for that channel, which aborts the
whole call (the cache entry has already been replaced at that point, line
613 precedes line 615). The digital final-state computation (lines 617-622)
runs for every channel with no analog data; `clock[0]` on an empty dataset
is an `IndexError`. -/
def runClocksLoop (pcOk : String → Bool) (fresh : Bool)
    (analog_data : List (String × List ℚ)) :
    ℕ → List (String × List (ℤ × ℤ)) → SmartCache →
      List (String × FinalVal) → List SendEvent →
      SmartCache × List SendEvent × Except String (List (String × FinalVal))
  | _, [], cache, final, sends => (cache, sends, .ok final)
  | i, (output, clock) :: rest, cache, final, sends =>
      let afterSend : SmartCache × List SendEvent × Option String :=
        if fresh = true ∨ dictGet cache.clocks output ≠ some clock then
          let cache' : SmartCache :=
            { cache with clocks := dictSet cache.clocks output clock }
          if pcOk output then
            (cache', sends ++ [.pseudoclock i output clock], none)
          else
            (cache', sends, some "TransmissionFailure: send_pseudoclock")
        else (cache, sends, none)
      match afterSend with
      | (cache', sends', some e) => (cache', sends', .error e)
      | (cache', sends', none) =>
          match dictGet analog_data output with
          | some _ => runClocksLoop pcOk fresh analog_data (i + 1) rest
              cache' final sends'
          | none =>
              match clock with
              | [] => (cache', sends', .error "IndexError: list index out of range")
              | c0 :: _ =>
                  let n_toggles := (clock.map Prod.snd).sum
                  runClocksLoop pcOk fresh analog_data (i + 1) rest cache'
                    (dictSet final output (.int (c0.2 + n_toggles % 2))) sends'

/-- The analog-data loop of `transition_to_buffered` (`FPGADevice.py`,
lines 625-638). On a transmit decision the final state `data[-1]` is
recorded (an `IndexError` on an empty array), the cache entry is replaced,
the range falls back to `(0, 5)` when no limits are stored, and
`send_analog_data` is attempted (`adOk output = false` aborts the call). -/
def runAnalogLoop (adOk : String → Bool) (fresh : Bool)
    (limits : List (String × (ℚ × ℚ))) :
    ℕ → List (String × List ℚ) → SmartCache →
      List (String × FinalVal) → List SendEvent →
      SmartCache × List SendEvent × Except String (List (String × FinalVal))
  | _, [], cache, final, sends => (cache, sends, .ok final)
  | i, (output, data) :: rest, cache, final, sends =>
      if fresh = true ∨ dictGet cache.data output ≠ some data then
        match data with
        | [] => (cache, sends, .error "IndexError: list index out of range")
        | _ :: _ =>
            let final' := dictSet final output (.rat (data.getLastD 0))
            let cache' : SmartCache :=
              { cache with data := dictSet cache.data output data }
            let range : ℚ × ℚ :=
              match dictGet limits output with
              | some mm => mm
              | none => (0, 5)
            if adOk output then
              runAnalogLoop adOk fresh limits (i + 1) rest cache' final'
                (sends ++ [.analogData i output range.1 range.2 data])
            else
              (cache', sends, .error "TransmissionFailure: send_analog_data")
      else runAnalogLoop adOk fresh limits (i + 1) rest cache final sends

/-- `FPGADeviceWorker.transition_to_buffered` (`FPGADevice.py`, lines
592-640), given the file contents (`clocks`, `analog_data`, `analog_limits`
groups) and the `fresh_program` flag. Returns the worker's cache after the
call (the worker object survives an exception), the successful hardware
calls made, and either the `final_state` dictionary or the exception that
aborted the call. -/
def transition_to_buffered (pcOk adOk : String → Bool)
    (clocks : List (String × List (ℤ × ℤ)))
    (analog_data : List (String × List ℚ))
    (limits : List (String × (ℚ × ℚ)))
    (fresh_program : Bool) (cache : SmartCache) :
    SmartCache × List SendEvent × Except String (List (String × FinalVal)) :=
  match runClocksLoop pcOk fresh_program analog_data 0 clocks cache [] [] with
  | (cache', sends', .error e) => (cache', sends', .error e)
  | (cache', sends', .ok final) =>
      runAnalogLoop adOk fresh_program limits 0 analog_data cache' final sends'

/-- The digit run of Python 2 `int(<str>)`: a nonempty all-digit string read
in base 10. -/
def digitsVal : List Char → Option ℕ
  | [] => none
  | cs =>
      if cs.all (fun c => c.isDigit) then
        some (cs.foldl (fun n c => 10 * n + (c.toNat - '0'.toNat)) 0)
      else none

/-- Strip leading and trailing whitespace, as Python 2 `int(<str>)` does
before reading the number. -/
def pyStrip (cs : List Char) : List Char :=
  ((cs.dropWhile Char.isWhitespace).reverse.dropWhile
    Char.isWhitespace).reverse

/-- Python 2 `int(<str>)`: surrounding whitespace stripped, an optional
single sign, then a nonempty digit run; `none` models the `ValueError`. -/
def pyParseInt (s : String) : Option ℤ :=
  match pyStrip s.toList with
  | '+' :: rest => (digitsVal rest).map (fun n => (n : ℤ))
  | '-' :: rest => (digitsVal rest).map (fun n => -(n : ℤ))
  | cs => (digitsVal cs).map (fun n => (n : ℤ))

/-- Helper for `pySplit`: split a character list at every occurrence of the
separator, keeping empty runs (Python `str.split` with an explicit
separator never drops empty fields). -/
def pySplitAux (sep : Char) : List Char → List (List Char)
  | [] => [[]]
  | c :: rest =>
      match pySplitAux sep rest with
      | [] => []
      | g :: gs => if c = sep then [] :: g :: gs else (c :: g) :: gs

/-- Python `s.split(sep)` for a single-character separator, as used by
`device.connection.split(' ')`: every occurrence of the separator is a
field boundary and empty fields are kept ('a  b' gives ['a', '', 'b']). -/
def pySplit (sep : Char) (s : String) : List String :=
  (pySplitAux sep s.toList).map (fun cs => String.mk cs)

/-- The state of an `OutputIntermediateDevice` relevant to `add_device`:
the names of the attached child devices and the stored output reference. -/
structure OIDState where
  child_devices : List String
  output : Option String
deriving DecidableEq, Repr

/-- `OutputIntermediateDevice.add_device` (`FPGADevice.py`, lines 308-327):
reject a second device; otherwise `device.connection.split(' ')` must give
exactly two parts, the first `"analog"` or `"digital"` and the second an
`int(...)`-parsable string, else a `LabscriptError` is raised. On success
the device is attached and stored as the output. -/
def add_device (st : OIDState) (device_name : String) (connection : String) :
    Except String OIDState :=
  if st.child_devices ≠ [] then
    .error "Output is already connected to the OutputIntermediateDevice. Only one output is allowed."
  else
    match pySplit ' ' connection with
    | [kind, channel] =>
        if kind = "analog" ∨ kind = "digital" then
          match pyParseInt channel with
          | some _ =>
              .ok ⟨st.child_devices ++ [device_name], some device_name⟩
          | none =>
              .error "invalid connection string. Format must be 'analog|digital #'."
        else
          .error "invalid connection string. Format must be 'analog|digital #'."
    | _ => .error "invalid connection string. Format must be 'analog|digital #'."

/-- The well-formed channel-id format stated by the specification: exactly
two space-separated tokens, the first `"analog"` or `"digital"`, the second
parsable as an integer. -/
def validChannelId (connection : String) : Bool :=
  match pySplit ' ' connection with
  | [kind, channel] =>
      (kind = "analog" || kind = "digital") && (pyParseInt channel).isSome
  | _ => false

/-- The flattened period content of a reduced instruction list: each
element's period repeated its (non-negative) repeat count times, in order. -/
def flatSteps (l : List PulseInst) : List ℚ :=
  l.flatMap (fun p => List.replicate p.reps.toNat p.step)

/-- The flattened period content of a raw clock list (the claims using this
only consider Wait-free lists, where the Wait case is vacuous). -/
def flatStepsRaw (l : List Instr) : List ℚ :=
  l.flatMap (fun i => match i with
    | .wait => []
    | .inst step reps => List.replicate reps.toNat step)

/-- The invariant of reducer output on Wait-free input: no two adjacent
elements share a period. -/
def stepsChain (l : List PulseInst) : Prop :=
  l.Chain' (fun a b => a.step ≠ b.step)

instance {ε α : Type _} [DecidableEq ε] [DecidableEq α] :
    DecidableEq (Except ε α) :=
  fun a b =>
    match a, b with
    | .error e₁, .error e₂ => decidable_of_iff (e₁ = e₂) (by simp)
    | .ok x, .ok y => decidable_of_iff (x = y) (by simp)
    | .error _, .ok _ => isFalse (by simp)
    | .ok _, .error _ => isFalse (by simp)

end FPGADevice

namespace FPGADevice

@[simp] lemma pyInt_one : pyInt 1 = 1 := by
  simp [pyInt, Rat.num_one, Rat.den_one]

@[simp] lemma pyInt_two : pyInt 2 = 2 := by simp [pyInt]

@[simp] lemma pyInt_natCast (n : ℕ) : pyInt (n : ℚ) = n := by simp [pyInt]

/-- C1: the claimed encoder output on the round-trip fixture is wrong: the
code consumes one rep of the first element, leaving `reps = 2` and hence
`toggles = 2 - 1 = 1` for the residual tick — not the `2` the claim
hard-codes for the middle tick. -/
theorem C1_counterexample :
    convert_to_clocks_and_toggles
        [⟨1/10, 3⟩, ⟨1/5, 2⟩] (.digitalOut [0]) 10 ≠
      .ok [(0, 0), (0, 2), (1, 1)] := by
  norm_num [convert_to_clocks_and_toggles, initialState, tickOf]

/-- C1 (amended): for the reduced instruction sequence
`[{period 1/10, repeats 3}, {period 1/5, repeats 2}]` with `clockLimit = 10`
and initial raw state `0` on a TwoLevel (digital) channel, the encoder
returns exactly the tick list `[(0, 0), (0, 1), (1, 1)]`. -/
theorem C1_encoder_fixture :
    convert_to_clocks_and_toggles
        [⟨1/10, 3⟩, ⟨1/5, 2⟩] (.digitalOut [0]) 10 =
      .ok [(0, 0), (0, 1), (1, 1)] := by
  norm_num [convert_to_clocks_and_toggles, initialState, tickOf]

lemma reduceStep_wait (acc : List PulseInst) :
    reduceStep acc .wait = acc ++ [⟨0, 1⟩] := rfl

lemma reduceStep_inst_nil (s : ℚ) (r : ℤ) :
    reduceStep [] (.inst s r) = [⟨s, r⟩] := rfl

lemma reduceStep_inst_concat_eq (init : List PulseInst) (last : PulseInst)
    (s : ℚ) (r : ℤ) (h : last.step = s) :
    reduceStep (init ++ [last]) (.inst s r) =
      init ++ [⟨last.step, last.reps + r⟩] := by
  simp [reduceStep, List.getLast?_concat, h]

lemma reduceStep_inst_concat_ne (init : List PulseInst) (last : PulseInst)
    (s : ℚ) (r : ℤ) (h : ¬ last.step = s) :
    reduceStep (init ++ [last]) (.inst s r) =
      (init ++ [last]) ++ [⟨s, r⟩] := by
  simp [reduceStep, List.getLast?_concat, h]

/-- C5 (amended): a Wait is turned into its own fresh `{step 0, reps 1}`
output element no matter what precedes it — the merging branch is skipped
for Waits, so a Wait is never merged into the preceding output element.
(The other half of the original claim is false: a later zero-period
instruction merges into the Wait-derived element; see the
counterexample.) -/
theorem C5_wait_never_merges_backward (xs ys : List Instr) :
    reduce_clock_instructions (xs ++ .wait :: ys) =
      List.foldl reduceStep (reduce_clock_instructions xs ++ [⟨0, 1⟩]) ys := by
  simp [reduce_clock_instructions, List.foldl_append, reduceStep_wait]

/-- C5: a zero-period instruction directly after a Wait is merged into the
Wait-derived `{step 0, reps 1}` element: the reduction of
`['WAIT', {step 0, reps 5}]` is the single element `{step 0, reps 6}`, and
no distinct `{step 0, reps 1}` element survives in the output. -/
theorem C5_counterexample :
    reduce_clock_instructions [.wait, .inst 0 5] = [⟨0, 6⟩] ∧
      (⟨0, 1⟩ : PulseInst) ∉ reduce_clock_instructions [.wait, .inst 0 5] := by
  constructor
  · simp [reduce_clock_instructions, reduceStep]
  · simp [reduce_clock_instructions, reduceStep]

lemma stepsChain_foldl (xs : List Instr) (acc : List PulseInst)
    (h1 : Instr.wait ∉ xs) (hacc : stepsChain acc) :
    stepsChain (List.foldl reduceStep acc xs) := by
  induction xs generalizing acc with
  | nil => simpa using hacc
  | cons x rest ih =>
    match x with
    | .wait => exact absurd (List.mem_cons_self _ _) h1
    | .inst s r =>
      have h1' : Instr.wait ∉ rest := fun h => h1 (List.mem_cons_of_mem _ h)
      rcases List.eq_nil_or_concat acc with rfl | ⟨init, last, rfl⟩
      · rw [List.foldl_cons, reduceStep_inst_nil]
        exact ih _ h1' (List.chain'_singleton _)
      · rw [List.concat_eq_append] at *
        by_cases h : last.step = s
        · rw [List.foldl_cons, reduceStep_inst_concat_eq _ _ _ _ h]
          apply ih _ h1'
          rw [stepsChain, List.chain'_append] at hacc ⊢
          refine ⟨hacc.1, List.chain'_singleton _, ?_⟩
          intro a ha b hb
          simp only [List.head?_cons, Option.mem_def, Option.some.injEq] at hb
          have := hacc.2.2 a ha last (by simp)
          simp [← hb, this]
        · rw [List.foldl_cons, reduceStep_inst_concat_ne _ _ _ _ h]
          apply ih _ h1'
          rw [stepsChain, List.chain'_append]
          refine ⟨hacc, List.chain'_singleton _, ?_⟩
          intro a ha b hb
          simp only [List.getLast?_concat, Option.mem_def, Option.some.injEq] at ha
          simp only [List.head?_cons, Option.mem_def, Option.some.injEq] at hb
          subst ha; subst hb
          exact h

lemma reduce_of_stepsChain (l : List PulseInst) :
    ∀ acc : List PulseInst, stepsChain (acc ++ l) →
      List.foldl reduceStep acc (l.map PulseInst.toInstr) = acc ++ l := by
  induction l with
  | nil => intro acc _; simp
  | cons p rest ih =>
    intro acc hchain
    rcases List.eq_nil_or_concat acc with rfl | ⟨init, last, rfl⟩
    · rw [List.map_cons, List.foldl_cons]
      show List.foldl reduceStep (reduceStep [] (.inst p.step p.reps)) _ = _
      rw [reduceStep_inst_nil]
      have : ([⟨p.step, p.reps⟩] : List PulseInst) = [p] := rfl
      rw [this]
      have := ih [p] (by simpa using hchain)
      simpa using this
    · rw [List.concat_eq_append] at *
      have hne : last.step ≠ p.step := by
        rw [stepsChain, List.chain'_append] at hchain
        exact hchain.2.2 last (by simp [List.getLast?_concat]) p (by simp)
      rw [List.map_cons, List.foldl_cons]
      show List.foldl reduceStep
          (reduceStep (init ++ [last]) (.inst p.step p.reps)) _ = _
      rw [reduceStep_inst_concat_ne _ _ _ _ hne]
      have : ((init ++ [last]) ++ [⟨p.step, p.reps⟩] : List PulseInst) =
          (init ++ [last]) ++ [p] := rfl
      rw [this]
      have := ih ((init ++ [last]) ++ [p]) (by simpa using hchain)
      simpa using this

/-- C6 (amended): the reducer is idempotent on Wait-free sequences:
re-reducing the output of `reduce_clock_instructions` (whose elements are
plain step/reps dictionaries) reproduces it. (With Waits the original claim
is false; see the counterexample.) -/
theorem C6_idempotent_without_wait (x : List Instr) (h : Instr.wait ∉ x) :
    reduce_clock_instructions
        ((reduce_clock_instructions x).map PulseInst.toInstr) =
      reduce_clock_instructions x := by
  have hchain : stepsChain (reduce_clock_instructions x) :=
    stepsChain_foldl x [] h List.chain'_nil
  have := reduce_of_stepsChain (reduce_clock_instructions x) []
    (by simpa using hchain)
  simpa [reduce_clock_instructions] using this

/-- C6: idempotence fails on a sequence with a Wait: reducing
`[{step 0, reps 2}, 'WAIT']` gives `[{0,2},{0,1}]`, two adjacent elements of
equal period, which a second reduction merges into `[{0,3}]`. -/
theorem C6_counterexample :
    reduce_clock_instructions
        ((reduce_clock_instructions [.inst 0 2, .wait]).map
          PulseInst.toInstr) ≠
      reduce_clock_instructions [.inst 0 2, .wait] := by
  simp [reduce_clock_instructions, reduceStep, PulseInst.toInstr]

/-- C6 witness: a concrete Wait-free sequence on which re-reduction is the
identity. -/
theorem C6_witness :
    Instr.wait ∉ [Instr.inst 1 2, Instr.inst 1 3] ∧
      reduce_clock_instructions
          ((reduce_clock_instructions [.inst 1 2, .inst 1 3]).map
            PulseInst.toInstr) =
        reduce_clock_instructions [.inst 1 2, .inst 1 3] :=
  ⟨by simp, C6_idempotent_without_wait _ (by simp)⟩

lemma flatSteps_append (l₁ l₂ : List PulseInst) :
    flatSteps (l₁ ++ l₂) = flatSteps l₁ ++ flatSteps l₂ := by
  simp [flatSteps]

lemma flatSteps_foldl (xs : List Instr) (acc : List PulseInst)
    (h1 : Instr.wait ∉ xs)
    (h2 : ∀ s r, Instr.inst s r ∈ xs → 0 ≤ r)
    (hacc : ∀ p ∈ acc, 0 ≤ p.reps) :
    flatSteps (List.foldl reduceStep acc xs) =
      flatSteps acc ++ flatStepsRaw xs := by
  induction xs generalizing acc with
  | nil => simp [flatStepsRaw]
  | cons x rest ih =>
    match x with
    | .wait => exact absurd (List.mem_cons_self _ _) h1
    | .inst s r =>
      have h1' : Instr.wait ∉ rest := fun h => h1 (List.mem_cons_of_mem _ h)
      have h2' : ∀ s' r', Instr.inst s' r' ∈ rest → 0 ≤ r' :=
        fun s' r' h => h2 s' r' (List.mem_cons_of_mem _ h)
      have hr : 0 ≤ r := h2 s r (List.mem_cons_self _ _)
      have hraw : flatStepsRaw (Instr.inst s r :: rest) =
          List.replicate r.toNat s ++ flatStepsRaw rest := by
        simp [flatStepsRaw]
      rcases List.eq_nil_or_concat acc with rfl | ⟨init, last, rfl⟩
      · rw [List.foldl_cons, reduceStep_inst_nil]
        rw [ih [⟨s, r⟩] h1' h2' (by simpa using hr)]
        simp [flatSteps, hraw]
      · rw [List.concat_eq_append] at *
        have hlast : 0 ≤ last.reps := hacc last (by simp)
        by_cases h : last.step = s
        · rw [List.foldl_cons, reduceStep_inst_concat_eq _ _ _ _ h]
          rw [ih _ h1' h2' ?_]
          · rw [hraw, flatSteps_append, flatSteps_append]
            simp only [flatSteps, List.flatMap_cons, List.flatMap_nil,
              List.append_nil]
            rw [Int.toNat_add hlast hr, List.replicate_add, h]
            simp only [List.append_assoc]
          · intro p hp
            rcases List.mem_append.mp hp with hp | hp
            · exact hacc p (List.mem_append.mpr (Or.inl hp))
            · simp only [List.mem_singleton] at hp
              subst hp
              exact add_nonneg hlast hr
        · rw [List.foldl_cons, reduceStep_inst_concat_ne _ _ _ _ h]
          rw [ih _ h1' h2' ?_]
          · rw [hraw, flatSteps_append, flatSteps_append]
            simp only [flatSteps, List.flatMap_cons, List.flatMap_nil,
              List.append_nil]
            simp [List.append_assoc]
          · intro p hp
            rcases List.mem_append.mp hp with hp | hp
            · exact hacc p hp
            · simp only [List.mem_singleton] at hp
              subst hp
              exact hr

/-- C10: on a Wait-free sequence (with the non-negative repeat counts of
genuine timed instructions), reduction preserves the flattened timing
content: repeating each output element's period its repeat count many
times yields the same period list as doing so on the input. -/
theorem C10_flatten_preserved (x : List Instr)
    (h1 : Instr.wait ∉ x) (h2 : ∀ s r, Instr.inst s r ∈ x → 0 ≤ r) :
    flatSteps (reduce_clock_instructions x) = flatStepsRaw x := by
  have := flatSteps_foldl x [] h1 h2 (by simp)
  simpa [reduce_clock_instructions, flatSteps] using this

/-- C10 witness: a concrete Wait-free sequence whose flattened content is
preserved by the reducer. -/
theorem C10_witness :
    (Instr.wait ∉ [Instr.inst 1 2, Instr.inst 1 3, Instr.inst 2 1]) ∧
      flatSteps (reduce_clock_instructions
          [.inst 1 2, .inst 1 3, .inst 2 1]) =
        flatStepsRaw [.inst 1 2, .inst 1 3, .inst 2 1] :=
  ⟨by simp, C10_flatten_preserved _ (by simp)
    (by intro s r h; fin_cases h <;> norm_num)⟩

/-- C8: with an unsupported output type but an empty instruction list, the
encoder raises nothing and returns `[]` — the type check sits inside the
first-iteration branch, so it is never reached. -/
theorem C8_counterexample :
    convert_to_clocks_and_toggles [] (.other "Shutter") 10 = .ok [] := rfl

/-- C8 (amended): on every nonempty instruction sequence, the encoder
handed an output that is neither an `AnalogOut` nor a `DigitalOut` raises
the unsupported-output-type `LabscriptError` (and hence returns no
encoding). -/
theorem C8_unsupported_kind_error (clock : List PulseInst) (name : String)
    (clock_limit : ℚ) (h : clock ≠ []) :
    convert_to_clocks_and_toggles clock (.other name) clock_limit =
      .error (unsupportedMsg name) := by
  cases clock with
  | nil => exact absurd rfl h
  | cons first rest => simp [convert_to_clocks_and_toggles, initialState]

/-- C8 witness: the error raised on a concrete one-element sequence. -/
theorem C8_witness :
    ([⟨1, 1⟩] : List PulseInst) ≠ [] ∧
      convert_to_clocks_and_toggles [⟨1, 1⟩] (.other "Shutter") 10 =
        .error (unsupportedMsg "Shutter") :=
  ⟨by simp, C8_unsupported_kind_error _ _ _ (by simp)⟩

lemma expandTick_suffix (n : ℤ) (cl st : ℚ) :
    ∀ (t : ℕ) (times : List ℚ), ∃ suffix,
      expandTick n cl st t times = times ++ suffix ∧ ∀ q ∈ suffix, q ≤ st := by
  intro t
  induction t with
  | zero => intro times; exact ⟨[], by simp [expandTick], by simp⟩
  | succ t ih =>
    intro times
    by_cases h : st < times.getLastD 0 + (n : ℚ) / cl
    · refine ⟨[], ?_, by simp⟩
      rw [List.append_nil]
      simp only [expandTick]
      rw [if_pos h]
    · obtain ⟨suffix, heq, hle⟩ :=
        ih (times ++ [times.getLastD 0 + (n : ℚ) / cl])
      refine ⟨(times.getLastD 0 + (n : ℚ) / cl) :: suffix, ?_, ?_⟩
      · simp only [expandTick]
        rw [if_neg h, heq]
        simp
      · intro q hq
        rcases List.mem_cons.mp hq with rfl | hq
        · exact le_of_not_lt h
        · exact hle q hq

lemma expandAux_suffix (cl st : ℚ) :
    ∀ (clock : List (ℤ × ℤ)) (times : List ℚ), ∃ suffix,
      expandAux cl st clock times = times ++ suffix ∧ ∀ q ∈ suffix, q ≤ st := by
  intro clock
  induction clock with
  | nil => intro times; exact ⟨[], by simp [expandAux], by simp⟩
  | cons tick rest ih =>
    intro times
    obtain ⟨s1, h1, hle1⟩ := expandTick_suffix tick.1 cl st tick.2.toNat times
    obtain ⟨s2, h2, hle2⟩ := ih (times ++ s1)
    refine ⟨s1 ++ s2, ?_, ?_⟩
    · cases tick with
      | mk a b =>
        simp only [expandAux]
        rw [h1, h2, List.append_assoc]
    · intro q hq
      rcases List.mem_append.mp hq with hq | hq
      · exact hle1 q hq
      · exact hle2 q hq

/-- C7 (amended): every time emitted by `expand_clock` after the first one
is at most `stop_time` — each candidate time of a non-first tick is checked
against the stop time before being appended. (The first tick's time is
appended unchecked and can exceed `stop_time`; see the counterexample.) -/
theorem C7_stop_time_after_first (clock : List (ℤ × ℤ)) (cl st : ℚ) (q : ℚ)
    (hq : q ∈ (expand_clock clock cl st).drop 1) : q ≤ st := by
  match clock with
  | [] => simp [expand_clock] at hq
  | (n, tog) :: rest =>
    obtain ⟨suffix, heq, hle⟩ := expandAux_suffix cl st rest [(n : ℚ) / cl]
    rw [expand_clock, heq] at hq
    simp only [List.singleton_append, List.drop_succ_cons,
      List.drop_zero] at hq
    exact hle q hq

/-- C7: the time contributed by the first tick is appended with no
stop-time check: expanding the single tick `(100, 0)` at `clock_limit = 10`
with `stop_time = 1` emits the time `10 > 1`. -/
theorem C7_counterexample :
    expand_clock [(100, 0)] 10 1 = [10] ∧ ¬ ((10 : ℚ) ≤ 1) := by
  constructor
  · norm_num [expand_clock, expandAux]
  · norm_num

/-- C7 witness: a concrete non-first emitted time, bounded by the stop
time. -/
theorem C7_witness :
    ((1 : ℚ) ∈ (expand_clock [(0, 0), (1, 2)] 1 10).drop 1) ∧
      (1 : ℚ) ≤ 10 := by
  have hm : (1 : ℚ) ∈ (expand_clock [(0, 0), (1, 2)] 1 10).drop 1 := by
    norm_num [expand_clock, expandAux, expandTick]
  exact ⟨hm, C7_stop_time_after_first _ _ _ 1 hm⟩

/-- C2: evaluation of the worker at the failing input. For a digital
channel with tick list `[(0, 1)]` (initial state `1`, no further ticks,
hence zero toggles), the reported final state is
`clock[0]['toggles'] + (sum(clock['toggles']) % 2) = 1 + 1 = 2`, while the
claimed parity `(initialState + toggleSum) mod 2` is `(1 + 0) % 2 = 1`.
The sum in the code includes the first row (which holds the initial state,
not a toggle count) and the initial state is added on top of the reduced
parity instead of inside it. -/
theorem C2_code_digital_final_state :
    (transition_to_buffered (fun _ => true) (fun _ => true)
        [("digital 0", [(0, 1)])] [] [] true ⟨[], []⟩).2.2 =
      .ok [("digital 0", .int 2)] ∧
    (FinalVal.int 2) ≠ .int ((1 + 0) % 2) := by
  constructor
  · decide
  · simp

/-- C3: on a failed `send_pseudoclock`, the cache entry is NOT left
unchanged: with old cached ticks `[(0, 0)]` and new ticks `[(0, 1)]`, the
failing run leaves the cache holding the new value `[(0, 1)]`. -/
theorem C3_counterexample :
    transition_to_buffered (fun _ => false) (fun _ => true)
        [("digital 0", [(0, 1)])] [] [] false
        ⟨[("digital 0", [(0, 0)])], []⟩ =
      (⟨[("digital 0", [(0, 1)])], []⟩, [],
        .error "TransmissionFailure: send_pseudoclock") ∧
    (⟨[("digital 0", [(0, 1)])], []⟩ : SmartCache) ≠
      ⟨[("digital 0", [(0, 0)])], []⟩ := by
  constructor
  · decide
  · simp


lemma dictGet_dictSet_self {α : Type _} (l : List (String × α)) (k : String)
    (v : α) : dictGet (dictSet l k v) k = some v := by
  induction l with
  | nil => simp [dictGet, dictSet]
  | cons p rest ih =>
    by_cases h : p.1 = k
    · cases p
      simp_all [dictSet, dictGet]
    · cases p
      simp_all [dictSet, dictGet]

lemma dictGet_dictSet_ne {α : Type _} (l : List (String × α)) (k k' : String)
    (v : α) (h : k' ≠ k) : dictGet (dictSet l k' v) k = dictGet l k := by
  induction l with
  | nil => simp [dictGet, dictSet, h]
  | cons p rest ih =>
    by_cases hp : p.1 = k'
    · cases p
      simp_all [dictSet, dictGet]
    · cases p
      simp_all [dictSet, dictGet]

section StepLemmas

variable (pcOk adOk : String → Bool) (fresh : Bool)
variable (analog_data : List (String × List ℚ))
variable (limits : List (String × (ℚ × ℚ)))

lemma clocksStep_fail (i : ℕ) (o : String) (c : List (ℤ × ℤ))
    (rest : List (String × List (ℤ × ℤ))) (cache : SmartCache)
    (final : List (String × FinalVal)) (sends : List SendEvent)
    (hdec : fresh = true ∨ dictGet cache.clocks o ≠ some c)
    (hfail : pcOk o = false) :
    runClocksLoop pcOk fresh analog_data i ((o, c) :: rest) cache final
        sends =
      ({ cache with clocks := dictSet cache.clocks o c }, sends,
        .error "TransmissionFailure: send_pseudoclock") := by
  simp only [runClocksLoop]
  rw [if_pos hdec, hfail]
  simp

lemma clocksStep_send_analog (i : ℕ) (o : String) (c : List (ℤ × ℤ))
    (rest : List (String × List (ℤ × ℤ))) (cache : SmartCache)
    (final : List (String × FinalVal)) (sends : List SendEvent)
    (x : List ℚ)
    (hdec : fresh = true ∨ dictGet cache.clocks o ≠ some c)
    (hok : pcOk o = true) (handig : dictGet analog_data o = some x) :
    runClocksLoop pcOk fresh analog_data i ((o, c) :: rest) cache final
        sends =
      runClocksLoop pcOk fresh analog_data (i + 1) rest
        { cache with clocks := dictSet cache.clocks o c } final
        (sends ++ [.pseudoclock i o c]) := by
  simp only [runClocksLoop]
  rw [if_pos hdec, hok]
  simp [handig]

lemma clocksStep_send_digital (i : ℕ) (o : String) (c0 : ℤ × ℤ)
    (ctl : List (ℤ × ℤ)) (rest : List (String × List (ℤ × ℤ)))
    (cache : SmartCache) (final : List (String × FinalVal))
    (sends : List SendEvent)
    (hdec : fresh = true ∨ dictGet cache.clocks o ≠ some (c0 :: ctl))
    (hok : pcOk o = true) (handig : dictGet analog_data o = none) :
    runClocksLoop pcOk fresh analog_data i ((o, c0 :: ctl) :: rest) cache
        final sends =
      runClocksLoop pcOk fresh analog_data (i + 1) rest
        { cache with clocks := dictSet cache.clocks o (c0 :: ctl) }
        (dictSet final o
          (.int (c0.2 + (((c0 :: ctl).map Prod.snd).sum) % 2)))
        (sends ++ [.pseudoclock i o (c0 :: ctl)]) := by
  simp only [runClocksLoop]
  rw [if_pos hdec, hok]
  simp [handig]

lemma clocksStep_send_idx (i : ℕ) (o : String)
    (rest : List (String × List (ℤ × ℤ))) (cache : SmartCache)
    (final : List (String × FinalVal)) (sends : List SendEvent)
    (hdec : fresh = true ∨ dictGet cache.clocks o ≠ some [])
    (hok : pcOk o = true) (handig : dictGet analog_data o = none) :
    runClocksLoop pcOk fresh analog_data i ((o, []) :: rest) cache final
        sends =
      ({ cache with clocks := dictSet cache.clocks o [] },
        sends ++ [.pseudoclock i o []],
        .error "IndexError: list index out of range") := by
  simp only [runClocksLoop]
  rw [if_pos hdec, hok]
  simp [handig]

lemma clocksStep_skip_analog (i : ℕ) (o : String) (c : List (ℤ × ℤ))
    (rest : List (String × List (ℤ × ℤ))) (cache : SmartCache)
    (final : List (String × FinalVal)) (sends : List SendEvent)
    (x : List ℚ)
    (hdec : ¬ (fresh = true ∨ dictGet cache.clocks o ≠ some c))
    (handig : dictGet analog_data o = some x) :
    runClocksLoop pcOk fresh analog_data i ((o, c) :: rest) cache final
        sends =
      runClocksLoop pcOk fresh analog_data (i + 1) rest cache final
        sends := by
  simp only [runClocksLoop]
  rw [if_neg hdec]
  simp [handig]

lemma clocksStep_skip_digital (i : ℕ) (o : String) (c0 : ℤ × ℤ)
    (ctl : List (ℤ × ℤ)) (rest : List (String × List (ℤ × ℤ)))
    (cache : SmartCache) (final : List (String × FinalVal))
    (sends : List SendEvent)
    (hdec : ¬ (fresh = true ∨ dictGet cache.clocks o ≠ some (c0 :: ctl)))
    (handig : dictGet analog_data o = none) :
    runClocksLoop pcOk fresh analog_data i ((o, c0 :: ctl) :: rest) cache
        final sends =
      runClocksLoop pcOk fresh analog_data (i + 1) rest cache
        (dictSet final o
          (.int (c0.2 + (((c0 :: ctl).map Prod.snd).sum) % 2)))
        sends := by
  simp only [runClocksLoop]
  rw [if_neg hdec]
  simp [handig]

lemma clocksStep_skip_idx (i : ℕ) (o : String)
    (rest : List (String × List (ℤ × ℤ))) (cache : SmartCache)
    (final : List (String × FinalVal)) (sends : List SendEvent)
    (hdec : ¬ (fresh = true ∨ dictGet cache.clocks o ≠ some []))
    (handig : dictGet analog_data o = none) :
    runClocksLoop pcOk fresh analog_data i ((o, []) :: rest) cache final
        sends =
      (cache, sends, .error "IndexError: list index out of range") := by
  simp only [runClocksLoop]
  rw [if_neg hdec]
  simp [handig]

lemma analogStep_skip (i : ℕ) (o : String) (d : List ℚ)
    (rest : List (String × List ℚ)) (cache : SmartCache)
    (final : List (String × FinalVal)) (sends : List SendEvent)
    (hdec : ¬ (fresh = true ∨ dictGet cache.data o ≠ some d)) :
    runAnalogLoop adOk fresh limits i ((o, d) :: rest) cache final sends =
      runAnalogLoop adOk fresh limits (i + 1) rest cache final sends := by
  simp only [runAnalogLoop]
  rw [if_neg hdec]

lemma analogStep_idx (i : ℕ) (o : String)
    (rest : List (String × List ℚ)) (cache : SmartCache)
    (final : List (String × FinalVal)) (sends : List SendEvent)
    (hdec : fresh = true ∨ dictGet cache.data o ≠ some []) :
    runAnalogLoop adOk fresh limits i ((o, []) :: rest) cache final sends =
      (cache, sends, .error "IndexError: list index out of range") := by
  simp only [runAnalogLoop]
  rw [if_pos hdec]

lemma analogStep_send (i : ℕ) (o : String) (d0 : ℚ) (dtl : List ℚ)
    (rest : List (String × List ℚ)) (cache : SmartCache)
    (final : List (String × FinalVal)) (sends : List SendEvent)
    (hdec : fresh = true ∨ dictGet cache.data o ≠ some (d0 :: dtl))
    (hok : adOk o = true) :
    runAnalogLoop adOk fresh limits i ((o, d0 :: dtl) :: rest) cache final
        sends =
      runAnalogLoop adOk fresh limits (i + 1) rest
        { cache with data := dictSet cache.data o (d0 :: dtl) }
        (dictSet final o (.rat ((d0 :: dtl).getLastD 0)))
        (sends ++ [.analogData i o
          (match dictGet limits o with
            | some mm => mm
            | none => ((0 : ℚ), (5 : ℚ))).1
          (match dictGet limits o with
            | some mm => mm
            | none => ((0 : ℚ), (5 : ℚ))).2 (d0 :: dtl)]) := by
  simp only [runAnalogLoop]
  rw [if_pos hdec, hok]
  simp

lemma analogStep_fail (i : ℕ) (o : String) (d0 : ℚ) (dtl : List ℚ)
    (rest : List (String × List ℚ)) (cache : SmartCache)
    (final : List (String × FinalVal)) (sends : List SendEvent)
    (hdec : fresh = true ∨ dictGet cache.data o ≠ some (d0 :: dtl))
    (hfail : adOk o = false) :
    runAnalogLoop adOk fresh limits i ((o, d0 :: dtl) :: rest) cache final
        sends =
      ({ cache with data := dictSet cache.data o (d0 :: dtl) }, sends,
        .error "TransmissionFailure: send_analog_data") := by
  simp only [runAnalogLoop]
  rw [if_pos hdec, hfail]
  simp

end StepLemmas

lemma runClocksLoop_data_eq (pcOk : String → Bool) (fresh : Bool)
    (analog_data : List (String × List ℚ)) :
    ∀ (lst : List (String × List (ℤ × ℤ))) (i : ℕ) (cache : SmartCache)
      (final : List (String × FinalVal)) (sends : List SendEvent),
      ((runClocksLoop pcOk fresh analog_data i lst cache final
        sends).1).data = cache.data := by
  intro lst
  induction lst with
  | nil => intro i cache final sends; simp [runClocksLoop]
  | cons hd rest ih =>
    obtain ⟨p, pc⟩ := hd
    intro i cache final sends
    by_cases hdec : fresh = true ∨ dictGet cache.clocks p ≠ some pc
    · by_cases hok : pcOk p = true
      · rcases handig : dictGet analog_data p with _ | x
        · cases pc with
          | nil =>
            rw [clocksStep_send_idx pcOk fresh analog_data i p rest cache
              final sends hdec hok handig]
          | cons c0 ctl =>
            rw [clocksStep_send_digital pcOk fresh analog_data i p c0 ctl
              rest cache final sends hdec hok handig]
            exact ih _ _ _ _
        · rw [clocksStep_send_analog pcOk fresh analog_data i p pc rest
            cache final sends x hdec hok handig]
          exact ih _ _ _ _
      · have hfail : pcOk p = false := by simpa using hok
        rw [clocksStep_fail pcOk fresh analog_data i p pc rest cache final
          sends hdec hfail]
    · rcases handig : dictGet analog_data p with _ | x
      · cases pc with
        | nil =>
          rw [clocksStep_skip_idx pcOk fresh analog_data i p rest cache
            final sends hdec handig]
        | cons c0 ctl =>
          rw [clocksStep_skip_digital pcOk fresh analog_data i p c0 ctl rest
            cache final sends hdec handig]
          exact ih _ _ _ _
      · rw [clocksStep_skip_analog pcOk fresh analog_data i p pc rest cache
          final sends x hdec handig]
        exact ih _ _ _ _

lemma runClocksLoop_no_event_when_cached (pcOk : String → Bool)
    (analog_data : List (String × List ℚ)) (o : String)
    (c : List (ℤ × ℤ)) (j : ℕ) :
    ∀ (lst : List (String × List (ℤ × ℤ))) (i : ℕ) (cache : SmartCache)
      (final : List (String × FinalVal)) (sends : List SendEvent),
      dictGet cache.clocks o = some c →
      (∀ c', (o, c') ∈ lst → c' = c) →
      SendEvent.pseudoclock j o c ∉ sends →
      SendEvent.pseudoclock j o c ∉
        (runClocksLoop pcOk false analog_data i lst cache final
          sends).2.1 := by
  intro lst
  induction lst with
  | nil =>
    intro i cache final sends _ _ hsends
    simpa [runClocksLoop] using hsends
  | cons hd rest ih =>
    obtain ⟨p, pc⟩ := hd
    intro i cache final sends hcached helem hsends
    have helem' : ∀ c', (o, c') ∈ rest → c' = c :=
      fun c' h => helem c' (List.mem_cons_of_mem _ h)
    by_cases hpo : p = o
    · subst hpo
      have hpc : pc = c := helem pc (List.mem_cons_self _ _)
      subst hpc
      have hdec : ¬ (false = true ∨ dictGet cache.clocks p ≠ some pc) := by
        simp [hcached]
      rcases handig : dictGet analog_data p with _ | x
      · cases pc with
        | nil =>
          rw [clocksStep_skip_idx pcOk false analog_data i p rest cache
            final sends hdec handig]
          exact hsends
        | cons c0 ctl =>
          rw [clocksStep_skip_digital pcOk false analog_data i p c0 ctl
            rest cache final sends hdec handig]
          exact ih _ _ _ _ hcached helem' hsends
      · rw [clocksStep_skip_analog pcOk false analog_data i p pc rest cache
          final sends x hdec handig]
        exact ih _ _ _ _ hcached helem' hsends
    · have hsends' : SendEvent.pseudoclock j o c ∉
          sends ++ [SendEvent.pseudoclock i p pc] := by
        intro hm
        rcases List.mem_append.mp hm with hm | hm
        · exact hsends hm
        · simp only [List.mem_singleton] at hm
          injection hm with e1 e2 e3
          exact hpo e2.symm
      have hcached' : ∀ v,
          dictGet (dictSet cache.clocks p v) o = some c := by
        intro v
        rw [dictGet_dictSet_ne _ _ _ _ hpo]
        exact hcached
      by_cases hdec : false = true ∨ dictGet cache.clocks p ≠ some pc
      · by_cases hok : pcOk p = true
        · rcases handig : dictGet analog_data p with _ | x
          · cases pc with
            | nil =>
              rw [clocksStep_send_idx pcOk false analog_data i p rest cache
                final sends hdec hok handig]
              exact hsends'
            | cons c0 ctl =>
              rw [clocksStep_send_digital pcOk false analog_data i p c0 ctl
                rest cache final sends hdec hok handig]
              exact ih _ _ _ _ (hcached' _) helem' hsends'
          · rw [clocksStep_send_analog pcOk false analog_data i p pc rest
              cache final sends x hdec hok handig]
            exact ih _ _ _ _ (hcached' _) helem' hsends'
        · have hfail : pcOk p = false := by simpa using hok
          rw [clocksStep_fail pcOk false analog_data i p pc rest cache
            final sends hdec hfail]
          exact hsends
      · rcases handig : dictGet analog_data p with _ | x
        · cases pc with
          | nil =>
            rw [clocksStep_skip_idx pcOk false analog_data i p rest cache
              final sends hdec handig]
            exact hsends
          | cons c0 ctl =>
            rw [clocksStep_skip_digital pcOk false analog_data i p c0 ctl
              rest cache final sends hdec handig]
            exact ih _ _ _ _ hcached helem' hsends
        · rw [clocksStep_skip_analog pcOk false analog_data i p pc rest
            cache final sends x hdec handig]
          exact ih _ _ _ _ hcached helem' hsends

lemma runAnalogLoop_no_new_pseudoclock (adOk : String → Bool)
    (fresh : Bool) (limits : List (String × (ℚ × ℚ))) (o : String)
    (c : List (ℤ × ℤ)) (j : ℕ) :
    ∀ (lst : List (String × List ℚ)) (i : ℕ) (cache : SmartCache)
      (final : List (String × FinalVal)) (sends : List SendEvent),
      SendEvent.pseudoclock j o c ∉ sends →
      SendEvent.pseudoclock j o c ∉
        (runAnalogLoop adOk fresh limits i lst cache final sends).2.1 := by
  intro lst
  induction lst with
  | nil =>
    intro i cache final sends hsends
    simpa [runAnalogLoop] using hsends
  | cons hd rest ih =>
    obtain ⟨p, pd⟩ := hd
    intro i cache final sends hsends
    by_cases hdec : fresh = true ∨ dictGet cache.data p ≠ some pd
    · cases pd with
      | nil =>
        rw [analogStep_idx adOk fresh limits i p rest cache final sends
          hdec]
        exact hsends
      | cons d0 dtl =>
        by_cases hok : adOk p = true
        · rw [analogStep_send adOk fresh limits i p d0 dtl rest cache final
            sends hdec hok]
          apply ih
          intro hm
          rcases List.mem_append.mp hm with hm | hm
          · exact hsends hm
          · simp only [List.mem_singleton] at hm
            exact SendEvent.noConfusion hm
        · have hfail : adOk p = false := by simpa using hok
          rw [analogStep_fail adOk fresh limits i p d0 dtl rest cache final
            sends hdec hfail]
          exact hsends
    · rw [analogStep_skip adOk fresh limits i p pd rest cache final sends
        hdec]
      exact ih _ _ _ _ hsends

lemma runClocksLoop_no_new_analog (pcOk : String → Bool) (fresh : Bool)
    (analog_data : List (String × List ℚ)) (o : String) (j : ℕ)
    (mn mx : ℚ) (d : List ℚ) :
    ∀ (lst : List (String × List (ℤ × ℤ))) (i : ℕ) (cache : SmartCache)
      (final : List (String × FinalVal)) (sends : List SendEvent),
      SendEvent.analogData j o mn mx d ∉ sends →
      SendEvent.analogData j o mn mx d ∉
        (runClocksLoop pcOk fresh analog_data i lst cache final
          sends).2.1 := by
  intro lst
  induction lst with
  | nil =>
    intro i cache final sends hsends
    simpa [runClocksLoop] using hsends
  | cons hd rest ih =>
    obtain ⟨p, pc⟩ := hd
    intro i cache final sends hsends
    have hsends' : SendEvent.analogData j o mn mx d ∉
        sends ++ [SendEvent.pseudoclock i p pc] := by
      intro hm
      rcases List.mem_append.mp hm with hm | hm
      · exact hsends hm
      · simp only [List.mem_singleton] at hm
        exact SendEvent.noConfusion hm
    by_cases hdec : fresh = true ∨ dictGet cache.clocks p ≠ some pc
    · by_cases hok : pcOk p = true
      · rcases handig : dictGet analog_data p with _ | x
        · cases pc with
          | nil =>
            rw [clocksStep_send_idx pcOk fresh analog_data i p rest cache
              final sends hdec hok handig]
            exact hsends'
          | cons c0 ctl =>
            rw [clocksStep_send_digital pcOk fresh analog_data i p c0 ctl
              rest cache final sends hdec hok handig]
            exact ih _ _ _ _ hsends'
        · rw [clocksStep_send_analog pcOk fresh analog_data i p pc rest
            cache final sends x hdec hok handig]
          exact ih _ _ _ _ hsends'
      · have hfail : pcOk p = false := by simpa using hok
        rw [clocksStep_fail pcOk fresh analog_data i p pc rest cache final
          sends hdec hfail]
        exact hsends
    · rcases handig : dictGet analog_data p with _ | x
      · cases pc with
        | nil =>
          rw [clocksStep_skip_idx pcOk fresh analog_data i p rest cache
            final sends hdec handig]
          exact hsends
        | cons c0 ctl =>
          rw [clocksStep_skip_digital pcOk fresh analog_data i p c0 ctl
            rest cache final sends hdec handig]
          exact ih _ _ _ _ hsends
      · rw [clocksStep_skip_analog pcOk fresh analog_data i p pc rest cache
          final sends x hdec handig]
        exact ih _ _ _ _ hsends

lemma runAnalogLoop_no_event_when_cached (adOk : String → Bool)
    (limits : List (String × (ℚ × ℚ))) (o : String) (d : List ℚ) (j : ℕ)
    (mn mx : ℚ) :
    ∀ (lst : List (String × List ℚ)) (i : ℕ) (cache : SmartCache)
      (final : List (String × FinalVal)) (sends : List SendEvent),
      dictGet cache.data o = some d →
      (∀ d', (o, d') ∈ lst → d' = d) →
      SendEvent.analogData j o mn mx d ∉ sends →
      SendEvent.analogData j o mn mx d ∉
        (runAnalogLoop adOk false limits i lst cache final sends).2.1 := by
  intro lst
  induction lst with
  | nil =>
    intro i cache final sends _ _ hsends
    simpa [runAnalogLoop] using hsends
  | cons hd rest ih =>
    obtain ⟨p, pd⟩ := hd
    intro i cache final sends hcached helem hsends
    have helem' : ∀ d', (o, d') ∈ rest → d' = d :=
      fun d' h => helem d' (List.mem_cons_of_mem _ h)
    by_cases hpo : p = o
    · subst hpo
      have hpd : pd = d := helem pd (List.mem_cons_self _ _)
      subst hpd
      have hdec : ¬ (false = true ∨ dictGet cache.data p ≠ some pd) := by
        simp [hcached]
      rw [analogStep_skip adOk false limits i p pd rest cache final sends
        hdec]
      exact ih _ _ _ _ hcached helem' hsends
    · by_cases hdec : false = true ∨ dictGet cache.data p ≠ some pd
      · cases pd with
        | nil =>
          rw [analogStep_idx adOk false limits i p rest cache final sends
            hdec]
          exact hsends
        | cons d0 dtl =>
          by_cases hok : adOk p = true
          · rw [analogStep_send adOk false limits i p d0 dtl rest cache
              final sends hdec hok]
            apply ih
            · rw [dictGet_dictSet_ne _ _ _ _ hpo]
              exact hcached
            · exact helem'
            · intro hm
              rcases List.mem_append.mp hm with hm | hm
              · exact hsends hm
              · simp only [List.mem_singleton] at hm
                injection hm with e1 e2 e3 e4 e5
                exact hpo e2.symm
          · have hfail : adOk p = false := by simpa using hok
            rw [analogStep_fail adOk false limits i p d0 dtl rest cache
              final sends hdec hfail]
            exact hsends
      · rw [analogStep_skip adOk false limits i p pd rest cache final
          sends hdec]
        exact ih _ _ _ _ hcached helem' hsends

lemma runClocksLoop_fail_at (pcOk : String → Bool) (fresh : Bool)
    (analog_data : List (String × List ℚ)) (output : String)
    (clock : List (ℤ × ℤ)) (rest : List (String × List (ℤ × ℤ)))
    (hfail : pcOk output = false) :
    ∀ (pre : List (String × List (ℤ × ℤ))) (i : ℕ) (cache : SmartCache)
      (final : List (String × FinalVal)) (sends : List SendEvent),
      (∀ o' c', (o', c') ∈ pre → pcOk o' = true) →
      (∀ o' c', (o', c') ∈ pre → dictGet analog_data o' = none → c' ≠ []) →
      output ∉ pre.map Prod.fst →
      (fresh = true ∨ dictGet cache.clocks output ≠ some clock) →
      ∃ cacheF sendsF,
        runClocksLoop pcOk fresh analog_data i
            (pre ++ (output, clock) :: rest) cache final sends =
          (cacheF, sendsF, .error "TransmissionFailure: send_pseudoclock") ∧
        dictGet cacheF.clocks output = some clock ∧
        cacheF.data = cache.data := by
  intro pre
  induction pre with
  | nil =>
    intro i cache final sends _ _ _ hdec
    refine ⟨{ cache with clocks := dictSet cache.clocks output clock },
      sends, ?_, ?_, rfl⟩
    · simpa using clocksStep_fail pcOk fresh analog_data i output clock
        rest cache final sends hdec hfail
    · exact dictGet_dictSet_self _ _ _
  | cons hd pre' ih =>
    obtain ⟨p, pc⟩ := hd
    intro i cache final sends hpok hpne hnotin hdec
    have hnot : ¬ (output = p ∨ output ∈ pre'.map Prod.fst) := by
      simpa using hnotin
    have hpo : p ≠ output := fun h => hnot (Or.inl h.symm)
    have hnotin' : output ∉ pre'.map Prod.fst := fun h => hnot (Or.inr h)
    have hpok' : ∀ o' c', (o', c') ∈ pre' → pcOk o' = true :=
      fun o' c' h => hpok o' c' (List.mem_cons_of_mem _ h)
    have hpne' : ∀ o' c', (o', c') ∈ pre' →
        dictGet analog_data o' = none → c' ≠ [] :=
      fun o' c' h => hpne o' c' (List.mem_cons_of_mem _ h)
    have hp : pcOk p = true := hpok p pc (List.mem_cons_self _ _)
    have hdec' : ∀ v, fresh = true ∨
        dictGet (dictSet cache.clocks p v) output ≠ some clock := by
      intro v
      rcases hdec with h | h
      · exact Or.inl h
      · right
        rw [dictGet_dictSet_ne _ _ _ _ hpo]
        exact h
    rw [List.cons_append]
    by_cases hdecp : fresh = true ∨ dictGet cache.clocks p ≠ some pc
    · rcases handig : dictGet analog_data p with _ | x
      · have hpc : pc ≠ [] := hpne p pc (List.mem_cons_self _ _) handig
        cases pc with
        | nil => exact absurd rfl hpc
        | cons c0 ctl =>
          rw [clocksStep_send_digital pcOk fresh analog_data i p c0 ctl
            (pre' ++ (output, clock) :: rest) cache final sends hdecp hp
            handig]
          exact ih _ _ _ _ hpok' hpne' hnotin' (hdec' _)
      · rw [clocksStep_send_analog pcOk fresh analog_data i p pc
          (pre' ++ (output, clock) :: rest) cache final sends x hdecp hp
          handig]
        exact ih _ _ _ _ hpok' hpne' hnotin' (hdec' _)
    · rcases handig : dictGet analog_data p with _ | x
      · have hpc : pc ≠ [] := hpne p pc (List.mem_cons_self _ _) handig
        cases pc with
        | nil => exact absurd rfl hpc
        | cons c0 ctl =>
          rw [clocksStep_skip_digital pcOk fresh analog_data i p c0 ctl
            (pre' ++ (output, clock) :: rest) cache final sends hdecp
            handig]
          exact ih _ _ _ _ hpok' hpne' hnotin' hdec
      · rw [clocksStep_skip_analog pcOk fresh analog_data i p pc
          (pre' ++ (output, clock) :: rest) cache final sends x hdecp
          handig]
        exact ih _ _ _ _ hpok' hpne' hnotin' hdec

lemma runAnalogLoop_fail_at (adOk : String → Bool) (fresh : Bool)
    (limits : List (String × (ℚ × ℚ))) (output : String) (d0 : ℚ)
    (dtl : List ℚ) (restA : List (String × List ℚ))
    (hfail : adOk output = false) :
    ∀ (preA : List (String × List ℚ)) (i : ℕ) (cache : SmartCache)
      (final : List (String × FinalVal)) (sends : List SendEvent),
      (∀ o' d', (o', d') ∈ preA → adOk o' = true) →
      (∀ o' d', (o', d') ∈ preA → d' ≠ []) →
      output ∉ preA.map Prod.fst →
      (fresh = true ∨ dictGet cache.data output ≠ some (d0 :: dtl)) →
      ∃ cacheF sendsF,
        runAnalogLoop adOk fresh limits i
            (preA ++ (output, d0 :: dtl) :: restA) cache final sends =
          (cacheF, sendsF, .error "TransmissionFailure: send_analog_data") ∧
        dictGet cacheF.data output = some (d0 :: dtl) ∧
        cacheF.clocks = cache.clocks := by
  intro preA
  induction preA with
  | nil =>
    intro i cache final sends _ _ _ hdec
    refine ⟨{ cache with data := dictSet cache.data output (d0 :: dtl) },
      sends, ?_, ?_, rfl⟩
    · simpa using analogStep_fail adOk fresh limits i output d0 dtl restA
        cache final sends hdec hfail
    · exact dictGet_dictSet_self _ _ _
  | cons hd pre' ih =>
    obtain ⟨p, pd⟩ := hd
    intro i cache final sends hpok hpne hnotin hdec
    have hnot : ¬ (output = p ∨ output ∈ pre'.map Prod.fst) := by
      simpa using hnotin
    have hpo : p ≠ output := fun h => hnot (Or.inl h.symm)
    have hnotin' : output ∉ pre'.map Prod.fst := fun h => hnot (Or.inr h)
    have hpok' : ∀ o' d', (o', d') ∈ pre' → adOk o' = true :=
      fun o' d' h => hpok o' d' (List.mem_cons_of_mem _ h)
    have hpne' : ∀ o' d', (o', d') ∈ pre' → d' ≠ [] :=
      fun o' d' h => hpne o' d' (List.mem_cons_of_mem _ h)
    have hp : adOk p = true := hpok p pd (List.mem_cons_self _ _)
    have hpd : pd ≠ [] := hpne p pd (List.mem_cons_self _ _)
    rw [List.cons_append]
    by_cases hdecp : fresh = true ∨ dictGet cache.data p ≠ some pd
    · cases pd with
      | nil => exact absurd rfl hpd
      | cons p0 ptl =>
        rw [analogStep_send adOk fresh limits i p p0 ptl
          (pre' ++ (output, d0 :: dtl) :: restA) cache final sends hdecp
          hp]
        apply ih _ _ _ _ hpok' hpne' hnotin'
        rcases hdec with h | h
        · exact Or.inl h
        · right
          rw [dictGet_dictSet_ne _ _ _ _ hpo]
          exact h
    · rw [analogStep_skip adOk fresh limits i p pd
        (pre' ++ (output, d0 :: dtl) :: restA) cache final sends hdecp]
      exact ih _ _ _ _ hpok' hpne' hnotin' hdec

lemma runClocksLoop_ok (pcOk : String → Bool) (fresh : Bool)
    (analog_data : List (String × List ℚ)) (hpc : ∀ ch, pcOk ch = true) :
    ∀ (lst : List (String × List (ℤ × ℤ))) (i : ℕ) (cache : SmartCache)
      (final : List (String × FinalVal)) (sends : List SendEvent),
      (lst.map Prod.fst).Nodup →
      (∀ o c, (o, c) ∈ lst → dictGet analog_data o = none → c ≠ []) →
      ∃ cacheA newSends finalA,
        runClocksLoop pcOk fresh analog_data i lst cache final sends =
          (cacheA, sends ++ newSends, .ok finalA) ∧
        (∀ o c, (o, c) ∈ lst →
          ((∃ j, SendEvent.pseudoclock j o c ∈ newSends) ↔
            (fresh = true ∨ dictGet cache.clocks o ≠ some c))) ∧
        (∀ e ∈ newSends, ∃ j o c, e = SendEvent.pseudoclock j o c ∧
          (o, c) ∈ lst ∧ (fresh = true ∨ dictGet cache.clocks o ≠ some c)) ∧
        (∀ o c, (o, c) ∈ lst → dictGet cacheA.clocks o = some c) ∧
        (∀ o, o ∉ lst.map Prod.fst →
          dictGet cacheA.clocks o = dictGet cache.clocks o) ∧
        cacheA.data = cache.data := by
  intro lst
  induction lst with
  | nil =>
    intro i cache final sends _ _
    exact ⟨cache, [], final, by simp [runClocksLoop], by simp, by simp,
      by simp, fun o _ => rfl, rfl⟩
  | cons hd rest ih =>
    obtain ⟨o, c⟩ := hd
    intro i cache final sends hnd hdig
    have hkeys : (o :: rest.map Prod.fst).Nodup := by simpa using hnd
    have hnotin : o ∉ rest.map Prod.fst := (List.nodup_cons.mp hkeys).1
    have hnd' : (rest.map Prod.fst).Nodup := (List.nodup_cons.mp hkeys).2
    have hdig' : ∀ o' c', (o', c') ∈ rest →
        dictGet analog_data o' = none → c' ≠ [] :=
      fun o' c' h => hdig o' c' (List.mem_cons_of_mem _ h)
    have hmemkey : ∀ o' c', (o', c') ∈ rest → o' ≠ o := by
      intro o' c' h heq
      exact hnotin (heq ▸ List.mem_map_of_mem Prod.fst h)
    by_cases hdec : fresh = true ∨ dictGet cache.clocks o ≠ some c
    · -- the channel is transmitted
      have hstep : ∃ finalX,
          runClocksLoop pcOk fresh analog_data i ((o, c) :: rest) cache
              final sends =
            runClocksLoop pcOk fresh analog_data (i + 1) rest
              { cache with clocks := dictSet cache.clocks o c } finalX
              (sends ++ [SendEvent.pseudoclock i o c]) := by
        rcases handig : dictGet analog_data o with _ | x
        · have hc := hdig o c (List.mem_cons_self _ _) handig
          cases c with
          | nil => exact absurd rfl hc
          | cons c0 ctl =>
            refine ⟨dictSet final o
              (.int (c0.2 + ((c0 :: ctl).map Prod.snd).sum % 2)), ?_⟩
            simp only [runClocksLoop]
            rw [if_pos hdec, hpc o]
            simp [handig]
        · refine ⟨final, ?_⟩
          simp only [runClocksLoop]
          rw [if_pos hdec, hpc o]
          simp [handig]
      obtain ⟨finalX, hstep⟩ := hstep
      obtain ⟨cacheA, nS, fA, h1, h2, h3, h4, h5, h6⟩ :=
        ih (i + 1) { cache with clocks := dictSet cache.clocks o c } finalX
          (sends ++ [SendEvent.pseudoclock i o c]) hnd' hdig'
      refine ⟨cacheA, SendEvent.pseudoclock i o c :: nS, fA, ?_, ?_, ?_, ?_,
        ?_, ?_⟩
      · rw [hstep, h1]
        simp
      · intro o' c' hmem
        rcases List.mem_cons.mp hmem with heq | hmem'
        · simp only [Prod.mk.injEq] at heq
          obtain ⟨rfl, rfl⟩ := heq
          constructor
          · intro _; exact hdec
          · intro _; exact ⟨i, List.mem_cons_self _ _⟩
        · have hne : o' ≠ o := hmemkey o' c' hmem'
          have hiff := h2 o' c' hmem'
          simp only [dictGet_dictSet_ne _ _ _ _ (Ne.symm hne)] at hiff
          constructor
          · rintro ⟨j, hj⟩
            rcases List.mem_cons.mp hj with hj0 | hj'
            · injection hj0 with e1 e2 e3
              exact absurd e2 hne
            · exact hiff.mp ⟨j, hj'⟩
          · intro hdd
            obtain ⟨j, hj⟩ := hiff.mpr hdd
            exact ⟨j, List.mem_cons_of_mem _ hj⟩
      · intro e he
        rcases List.mem_cons.mp he with rfl | he'
        · exact ⟨i, o, c, rfl, List.mem_cons_self _ _, hdec⟩
        · obtain ⟨j, o', c', rfl, hmem', hdec'⟩ := h3 e he'
          have hne : o' ≠ o := hmemkey o' c' hmem'
          simp only [dictGet_dictSet_ne _ _ _ _ (Ne.symm hne)] at hdec'
          exact ⟨j, o', c', rfl, List.mem_cons_of_mem _ hmem', hdec'⟩
      · intro o' c' hmem
        rcases List.mem_cons.mp hmem with heq | hmem'
        · simp only [Prod.mk.injEq] at heq
          obtain ⟨rfl, rfl⟩ := heq
          rw [h5 o' hnotin]
          exact dictGet_dictSet_self _ _ _
        · exact h4 o' c' hmem'
      · intro o'' hno
        simp only [List.map_cons, List.mem_cons, not_or] at hno
        rw [h5 o'' hno.2]
        exact dictGet_dictSet_ne _ _ _ _ (Ne.symm hno.1)
      · exact h6
    · -- cache hit: nothing transmitted for this channel
      have hsame : dictGet cache.clocks o = some c := by
        rcases not_or.mp hdec with ⟨_, h2⟩
        exact not_ne_iff.mp h2
      have hstep : ∃ finalX,
          runClocksLoop pcOk fresh analog_data i ((o, c) :: rest) cache
              final sends =
            runClocksLoop pcOk fresh analog_data (i + 1) rest cache finalX
              sends := by
        rcases handig : dictGet analog_data o with _ | x
        · have hc := hdig o c (List.mem_cons_self _ _) handig
          cases c with
          | nil => exact absurd rfl hc
          | cons c0 ctl =>
            refine ⟨dictSet final o
              (.int (c0.2 + ((c0 :: ctl).map Prod.snd).sum % 2)), ?_⟩
            simp only [runClocksLoop]
            rw [if_neg hdec]
            simp [handig]
        · refine ⟨final, ?_⟩
          simp only [runClocksLoop]
          rw [if_neg hdec]
          simp [handig]
      obtain ⟨finalX, hstep⟩ := hstep
      obtain ⟨cacheA, nS, fA, h1, h2, h3, h4, h5, h6⟩ :=
        ih (i + 1) cache finalX sends hnd' hdig'
      refine ⟨cacheA, nS, fA, by rw [hstep, h1], ?_, ?_, ?_, ?_, h6⟩
      · intro o' c' hmem
        rcases List.mem_cons.mp hmem with heq | hmem'
        · simp only [Prod.mk.injEq] at heq
          obtain ⟨rfl, rfl⟩ := heq
          constructor
          · rintro ⟨j, hj⟩
            obtain ⟨j', o'', c'', heq', hmem', _⟩ := h3 _ hj
            injection heq' with e1 e2 e3
            subst e2
            exact absurd (List.mem_map_of_mem Prod.fst hmem') hnotin
          · intro hdd; exact absurd hdd hdec
        · exact h2 o' c' hmem'
      · intro e he
        obtain ⟨j, o', c', rfl, hmem', hdec'⟩ := h3 e he
        exact ⟨j, o', c', rfl, List.mem_cons_of_mem _ hmem', hdec'⟩
      · intro o' c' hmem
        rcases List.mem_cons.mp hmem with heq | hmem'
        · simp only [Prod.mk.injEq] at heq
          obtain ⟨rfl, rfl⟩ := heq
          rw [h5 o' hnotin]
          exact hsame
        · exact h4 o' c' hmem'
      · intro o'' hno
        simp only [List.map_cons, List.mem_cons, not_or] at hno
        exact h5 o'' hno.2

lemma runAnalogLoop_ok (adOk : String → Bool) (fresh : Bool)
    (limits : List (String × (ℚ × ℚ))) (had : ∀ ch, adOk ch = true) :
    ∀ (lst : List (String × List ℚ)) (i : ℕ) (cache : SmartCache)
      (final : List (String × FinalVal)) (sends : List SendEvent),
      (lst.map Prod.fst).Nodup →
      (∀ o d, (o, d) ∈ lst → d ≠ []) →
      ∃ cacheA newSends finalA,
        runAnalogLoop adOk fresh limits i lst cache final sends =
          (cacheA, sends ++ newSends, .ok finalA) ∧
        (∀ o d, (o, d) ∈ lst →
          ((∃ j mn mx, SendEvent.analogData j o mn mx d ∈ newSends) ↔
            (fresh = true ∨ dictGet cache.data o ≠ some d))) ∧
        (∀ e ∈ newSends, ∃ j o mn mx d,
          e = SendEvent.analogData j o mn mx d ∧ (o, d) ∈ lst ∧
            (fresh = true ∨ dictGet cache.data o ≠ some d)) ∧
        (∀ o d, (o, d) ∈ lst → dictGet cacheA.data o = some d) ∧
        (∀ o, o ∉ lst.map Prod.fst →
          dictGet cacheA.data o = dictGet cache.data o) ∧
        cacheA.clocks = cache.clocks := by
  intro lst
  induction lst with
  | nil =>
    intro i cache final sends _ _
    exact ⟨cache, [], final, by simp [runAnalogLoop], by simp, by simp,
      by simp, fun o _ => rfl, rfl⟩
  | cons hd rest ih =>
    obtain ⟨o, d⟩ := hd
    intro i cache final sends hnd hdat
    have hkeys : (o :: rest.map Prod.fst).Nodup := by simpa using hnd
    have hnotin : o ∉ rest.map Prod.fst := (List.nodup_cons.mp hkeys).1
    have hnd' : (rest.map Prod.fst).Nodup := (List.nodup_cons.mp hkeys).2
    have hdat' : ∀ o' d', (o', d') ∈ rest → d' ≠ [] :=
      fun o' d' h => hdat o' d' (List.mem_cons_of_mem _ h)
    have hmemkey : ∀ o' d', (o', d') ∈ rest → o' ≠ o := by
      intro o' d' h heq
      exact hnotin (heq ▸ List.mem_map_of_mem Prod.fst h)
    by_cases hdec : fresh = true ∨ dictGet cache.data o ≠ some d
    · -- the channel is transmitted
      have hd0 : d ≠ [] := hdat o d (List.mem_cons_self _ _)
      obtain ⟨d0, dtl, rfl⟩ : ∃ d0 dtl, d = d0 :: dtl := by
        cases d with
        | nil => exact absurd rfl hd0
        | cons d0 dtl => exact ⟨d0, dtl, rfl⟩
      have hstep :
          runAnalogLoop adOk fresh limits i ((o, d0 :: dtl) :: rest) cache
              final sends =
            runAnalogLoop adOk fresh limits (i + 1) rest
              { cache with data := dictSet cache.data o (d0 :: dtl) }
              (dictSet final o (.rat ((d0 :: dtl).getLastD 0)))
              (sends ++ [SendEvent.analogData i o
                (match dictGet limits o with
                  | some mm => mm
                  | none => ((0 : ℚ), (5 : ℚ))).1
                (match dictGet limits o with
                  | some mm => mm
                  | none => ((0 : ℚ), (5 : ℚ))).2 (d0 :: dtl)]) := by
        simp only [runAnalogLoop]
        rw [if_pos hdec, had o]
        simp
      obtain ⟨cacheA, nS, fA, h1, h2, h3, h4, h5, h6⟩ :=
        ih (i + 1) { cache with data := dictSet cache.data o (d0 :: dtl) }
          (dictSet final o (.rat ((d0 :: dtl).getLastD 0)))
          (sends ++ [SendEvent.analogData i o
            (match dictGet limits o with
              | some mm => mm
              | none => ((0 : ℚ), (5 : ℚ))).1
            (match dictGet limits o with
              | some mm => mm
              | none => ((0 : ℚ), (5 : ℚ))).2 (d0 :: dtl)]) hnd' hdat'
      refine ⟨cacheA, SendEvent.analogData i o
          (match dictGet limits o with
            | some mm => mm
            | none => ((0 : ℚ), (5 : ℚ))).1
          (match dictGet limits o with
            | some mm => mm
            | none => ((0 : ℚ), (5 : ℚ))).2 (d0 :: dtl) :: nS, fA, ?_, ?_,
        ?_, ?_, ?_, ?_⟩
      · rw [hstep, h1]
        simp
      · intro o' d' hmem
        rcases List.mem_cons.mp hmem with heq | hmem'
        · simp only [Prod.mk.injEq] at heq
          obtain ⟨rfl, rfl⟩ := heq
          constructor
          · intro _; exact hdec
          · intro _
            exact ⟨i, _, _, List.mem_cons_self _ _⟩
        · have hne : o' ≠ o := hmemkey o' d' hmem'
          have hiff := h2 o' d' hmem'
          simp only [dictGet_dictSet_ne _ _ _ _ (Ne.symm hne)] at hiff
          constructor
          · rintro ⟨j, mn, mx, hj⟩
            rcases List.mem_cons.mp hj with hj0 | hj'
            · injection hj0 with e1 e2 e3 e4 e5
              exact absurd e2 hne
            · exact hiff.mp ⟨j, mn, mx, hj'⟩
          · intro hdd
            obtain ⟨j, mn, mx, hj⟩ := hiff.mpr hdd
            exact ⟨j, mn, mx, List.mem_cons_of_mem _ hj⟩
      · intro e he
        rcases List.mem_cons.mp he with rfl | he'
        · exact ⟨i, o, _, _, _, rfl, List.mem_cons_self _ _, hdec⟩
        · obtain ⟨j, o', mn, mx, d', rfl, hmem', hdec'⟩ := h3 e he'
          have hne : o' ≠ o := hmemkey o' d' hmem'
          simp only [dictGet_dictSet_ne _ _ _ _ (Ne.symm hne)] at hdec'
          exact ⟨j, o', mn, mx, d', rfl, List.mem_cons_of_mem _ hmem', hdec'⟩
      · intro o' d' hmem
        rcases List.mem_cons.mp hmem with heq | hmem'
        · simp only [Prod.mk.injEq] at heq
          obtain ⟨rfl, rfl⟩ := heq
          rw [h5 o' hnotin]
          exact dictGet_dictSet_self _ _ _
        · exact h4 o' d' hmem'
      · intro o'' hno
        simp only [List.map_cons, List.mem_cons, not_or] at hno
        rw [h5 o'' hno.2]
        exact dictGet_dictSet_ne _ _ _ _ (Ne.symm hno.1)
      · exact h6
    · -- cache hit: nothing transmitted for this channel
      have hsame : dictGet cache.data o = some d := by
        rcases not_or.mp hdec with ⟨_, h2⟩
        exact not_ne_iff.mp h2
      have hstep :
          runAnalogLoop adOk fresh limits i ((o, d) :: rest) cache final
              sends =
            runAnalogLoop adOk fresh limits (i + 1) rest cache final
              sends := by
        simp only [runAnalogLoop]
        rw [if_neg hdec]
      obtain ⟨cacheA, nS, fA, h1, h2, h3, h4, h5, h6⟩ :=
        ih (i + 1) cache final sends hnd' hdat'
      refine ⟨cacheA, nS, fA, by rw [hstep, h1], ?_, ?_, ?_, ?_, h6⟩
      · intro o' d' hmem
        rcases List.mem_cons.mp hmem with heq | hmem'
        · simp only [Prod.mk.injEq] at heq
          obtain ⟨rfl, rfl⟩ := heq
          constructor
          · rintro ⟨j, mn, mx, hj⟩
            obtain ⟨j', o'', mn', mx', d'', heq', hmem', _⟩ := h3 _ hj
            injection heq' with e1 e2 e3 e4 e5
            subst e2
            exact absurd (List.mem_map_of_mem Prod.fst hmem') hnotin
          · intro hdd; exact absurd hdd hdec
        · exact h2 o' d' hmem'
      · intro e he
        obtain ⟨j, o', mn, mx, d', rfl, hmem', hdec'⟩ := h3 e he
        exact ⟨j, o', mn, mx, d', rfl, List.mem_cons_of_mem _ hmem', hdec'⟩
      · intro o' d' hmem
        rcases List.mem_cons.mp hmem with heq | hmem'
        · simp only [Prod.mk.injEq] at heq
          obtain ⟨rfl, rfl⟩ := heq
          rw [h5 o' hnotin]
          exact hsame
        · exact h4 o' d' hmem'
      · intro o'' hno
        simp only [List.map_cons, List.mem_cons, not_or] at hno
        exact h5 o'' hno.2

/-- C3 (amended): the smart-cache entry for a channel is replaced BEFORE
the transmission call is attempted, for both hardware calls, so a failed
transmission leaves the cache already holding the new data and the next
attempt does not retry. First conjunct: if `send_pseudoclock` fails for a
channel anywhere in the clocks group (every channel before it transmitting
successfully), the run aborts with the transmission error, the failing
channel's cache entry holds the NEW ticks, the analog cache is untouched,
and a subsequent run with the same file contents and `fresh_program =
false` (under any transport behaviour) performs no transmission of that
channel's ticks. Second conjunct: the same for a `send_analog_data`
failure anywhere in the analog group, the clocks phase having completed
successfully. -/
theorem C3_cache_replaced_before_send :
    (∀ (pcOk adOk pcOk₂ adOk₂ : String → Bool)
        (pre rest : List (String × List (ℤ × ℤ)))
        (output : String) (clock : List (ℤ × ℤ))
        (analog_data : List (String × List ℚ))
        (limits : List (String × (ℚ × ℚ)))
        (fresh : Bool) (cache : SmartCache),
      (∀ o' c', (o', c') ∈ pre → pcOk o' = true) →
      (∀ o' c', (o', c') ∈ pre → dictGet analog_data o' = none → c' ≠ []) →
      output ∉ pre.map Prod.fst →
      output ∉ rest.map Prod.fst →
      pcOk output = false →
      (fresh = true ∨ dictGet cache.clocks output ≠ some clock) →
      ∃ cacheF sendsF,
        transition_to_buffered pcOk adOk (pre ++ (output, clock) :: rest)
            analog_data limits fresh cache =
          (cacheF, sendsF,
            .error "TransmissionFailure: send_pseudoclock") ∧
        dictGet cacheF.clocks output = some clock ∧
        cacheF.data = cache.data ∧
        (∀ j, SendEvent.pseudoclock j output clock ∉
          (transition_to_buffered pcOk₂ adOk₂
            (pre ++ (output, clock) :: rest) analog_data limits false
            cacheF).2.1)) ∧
    (∀ (pcOk adOk pcOk₂ adOk₂ : String → Bool)
        (clocks : List (String × List (ℤ × ℤ)))
        (preA restA : List (String × List ℚ))
        (output : String) (d0 : ℚ) (dtl : List ℚ)
        (limits : List (String × (ℚ × ℚ)))
        (fresh : Bool) (cache : SmartCache),
      (∀ ch, pcOk ch = true) →
      ((clocks.map Prod.fst).Nodup) →
      (∀ o' c', (o', c') ∈ clocks →
        dictGet (preA ++ (output, d0 :: dtl) :: restA) o' = none →
          c' ≠ []) →
      (∀ o' d', (o', d') ∈ preA → adOk o' = true) →
      (∀ o' d', (o', d') ∈ preA → d' ≠ []) →
      output ∉ preA.map Prod.fst →
      output ∉ restA.map Prod.fst →
      adOk output = false →
      (fresh = true ∨ dictGet cache.data output ≠ some (d0 :: dtl)) →
      ∃ cacheF sendsF,
        transition_to_buffered pcOk adOk clocks
            (preA ++ (output, d0 :: dtl) :: restA) limits fresh cache =
          (cacheF, sendsF,
            .error "TransmissionFailure: send_analog_data") ∧
        dictGet cacheF.data output = some (d0 :: dtl) ∧
        (∀ j mn mx, SendEvent.analogData j output mn mx (d0 :: dtl) ∉
          (transition_to_buffered pcOk₂ adOk₂ clocks
            (preA ++ (output, d0 :: dtl) :: restA) limits false
            cacheF).2.1)) := by
  constructor
  · intro pcOk adOk pcOk₂ adOk₂ pre rest output clock analog_data limits
      fresh cache hpok hpne hnotinPre hnotinRest hfail hdec
    obtain ⟨cacheF, sendsF, heq, hent, hdata⟩ :=
      runClocksLoop_fail_at pcOk fresh analog_data output clock rest hfail
        pre 0 cache [] [] hpok hpne hnotinPre hdec
    refine ⟨cacheF, sendsF, ?_, hent, hdata, ?_⟩
    · simp only [transition_to_buffered]
      rw [heq]
    · intro j
      have helem : ∀ c',
          (output, c') ∈ pre ++ (output, clock) :: rest → c' = clock := by
        intro c' hm
        rcases List.mem_append.mp hm with hm | hm
        · exact absurd (List.mem_map_of_mem Prod.fst hm) hnotinPre
        · rcases List.mem_cons.mp hm with hm | hm
          · simp only [Prod.mk.injEq] at hm
            exact hm.2
          · exact absurd (List.mem_map_of_mem Prod.fst hm) hnotinRest
      rcases hr : runClocksLoop pcOk₂ false analog_data 0
          (pre ++ (output, clock) :: rest) cacheF [] [] with ⟨cf2, sf2, res2⟩
      have hnot_run := runClocksLoop_no_event_when_cached pcOk₂ analog_data
        output clock j (pre ++ (output, clock) :: rest) 0 cacheF [] []
        hent helem (by simp)
      rw [hr] at hnot_run
      cases res2 with
      | error e =>
        have ht : transition_to_buffered pcOk₂ adOk₂
            (pre ++ (output, clock) :: rest) analog_data limits false
            cacheF = (cf2, sf2, .error e) := by
          simp only [transition_to_buffered]
          rw [hr]
        rw [ht]
        exact hnot_run
      | ok fin =>
        have ht : transition_to_buffered pcOk₂ adOk₂
            (pre ++ (output, clock) :: rest) analog_data limits false
            cacheF =
            runAnalogLoop adOk₂ false limits 0 analog_data cf2 fin sf2 := by
          simp only [transition_to_buffered]
          rw [hr]
        rw [ht]
        exact runAnalogLoop_no_new_pseudoclock adOk₂ false limits output
          clock j analog_data 0 cf2 fin sf2 hnot_run
  · intro pcOk adOk pcOk₂ adOk₂ clocks preA restA output d0 dtl limits
      fresh cache hpc hndC hdig hpokA hpneA hnotinA hnotinRA hfailA hdec
    obtain ⟨c1, nS1, f1, e1, i1, s1, ent1, un1, dat1⟩ :=
      runClocksLoop_ok pcOk fresh (preA ++ (output, d0 :: dtl) :: restA)
        hpc clocks 0 cache [] [] hndC hdig
    have hdec1 : fresh = true ∨
        dictGet c1.data output ≠ some (d0 :: dtl) := by
      rw [dat1]
      exact hdec
    obtain ⟨cacheF, sendsF', heqA, hentD, hclk⟩ :=
      runAnalogLoop_fail_at adOk fresh limits output d0 dtl restA hfailA
        preA 0 c1 f1 ([] ++ nS1) hpokA hpneA hnotinA hdec1
    refine ⟨cacheF, sendsF', ?_, hentD, ?_⟩
    · simp only [transition_to_buffered]
      rw [e1]
      exact heqA
    · intro j mn mx
      have helemA : ∀ d',
          (output, d') ∈ preA ++ (output, d0 :: dtl) :: restA →
            d' = d0 :: dtl := by
        intro d' hm
        rcases List.mem_append.mp hm with hm | hm
        · exact absurd (List.mem_map_of_mem Prod.fst hm) hnotinA
        · rcases List.mem_cons.mp hm with hm | hm
          · simp only [Prod.mk.injEq] at hm
            exact hm.2
          · exact absurd (List.mem_map_of_mem Prod.fst hm) hnotinRA
      rcases hr : runClocksLoop pcOk₂ false
          (preA ++ (output, d0 :: dtl) :: restA) 0 clocks cacheF [] []
        with ⟨cf2, sf2, res2⟩
      have hnot_cl := runClocksLoop_no_new_analog pcOk₂ false
        (preA ++ (output, d0 :: dtl) :: restA) output j mn mx (d0 :: dtl)
        clocks 0 cacheF [] [] (by simp)
      rw [hr] at hnot_cl
      cases res2 with
      | error e =>
        have ht : transition_to_buffered pcOk₂ adOk₂ clocks
            (preA ++ (output, d0 :: dtl) :: restA) limits false cacheF =
            (cf2, sf2, .error e) := by
          simp only [transition_to_buffered]
          rw [hr]
        rw [ht]
        exact hnot_cl
      | ok fin =>
        have ht : transition_to_buffered pcOk₂ adOk₂ clocks
            (preA ++ (output, d0 :: dtl) :: restA) limits false cacheF =
            runAnalogLoop adOk₂ false limits 0
              (preA ++ (output, d0 :: dtl) :: restA) cf2 fin sf2 := by
          simp only [transition_to_buffered]
          rw [hr]
        rw [ht]
        have hdd : cf2.data = cacheF.data := by
          have hh := runClocksLoop_data_eq pcOk₂ false
            (preA ++ (output, d0 :: dtl) :: restA) clocks 0 cacheF [] []
          rw [hr] at hh
          exact hh
        exact runAnalogLoop_no_event_when_cached adOk₂ limits output
          (d0 :: dtl) j mn mx (preA ++ (output, d0 :: dtl) :: restA) 0 cf2
          fin sf2 (by rw [hdd]; exact hentD) helemA hnot_cl

/-- C3 witness: a concrete failing `send_pseudoclock` and a concrete
failing `send_analog_data`, each leaving the new data cached and the
subsequent attempt silent for that channel. -/
theorem C3_witness :
    ((fun _ => false : String → Bool) "digital 0" = false) ∧
    (false = true ∨
      dictGet (SmartCache.mk [] []).clocks "digital 0" ≠ some [(0, 1)]) ∧
    ((fun _ => false : String → Bool) "analog 0" = false) ∧
    (∃ cacheF sendsF,
      transition_to_buffered (fun _ => false) (fun _ => true)
          ([] ++ ("digital 0", [(0, 1)]) :: []) [] [] false ⟨[], []⟩ =
        (cacheF, sendsF, .error "TransmissionFailure: send_pseudoclock") ∧
      dictGet cacheF.clocks "digital 0" = some [(0, 1)] ∧
      cacheF.data = (SmartCache.mk [] []).data ∧
      (∀ j, SendEvent.pseudoclock j "digital 0" [(0, 1)] ∉
        (transition_to_buffered (fun _ => true) (fun _ => true)
          ([] ++ ("digital 0", [(0, 1)]) :: []) [] [] false
          cacheF).2.1)) ∧
    (∃ cacheF sendsF,
      transition_to_buffered (fun _ => true) (fun _ => false) []
          ([] ++ ("analog 0", [(0 : ℚ)]) :: []) [] true ⟨[], []⟩ =
        (cacheF, sendsF, .error "TransmissionFailure: send_analog_data") ∧
      dictGet cacheF.data "analog 0" = some [(0 : ℚ)] ∧
      (∀ j mn mx, SendEvent.analogData j "analog 0" mn mx [(0 : ℚ)] ∉
        (transition_to_buffered (fun _ => true) (fun _ => true) []
          ([] ++ ("analog 0", [(0 : ℚ)]) :: []) [] false cacheF).2.1)) :=
  ⟨rfl, Or.inr (by simp [dictGet]), rfl,
    C3_cache_replaced_before_send.1 (fun _ => false) (fun _ => true)
      (fun _ => true) (fun _ => true) [] [] "digital 0" [(0, 1)] [] []
      false ⟨[], []⟩ (by simp) (by simp) (by simp) (by simp) rfl
      (Or.inr (by simp [dictGet])),
    C3_cache_replaced_before_send.2 (fun _ => true) (fun _ => false)
      (fun _ => true) (fun _ => true) [] [] [] "analog 0" 0 [] [] true
      ⟨[], []⟩ (fun _ => rfl) (by simp) (by simp) (by simp) (by simp)
      (by simp) (by simp) rfl (Or.inl rfl)⟩

/-- C4: with every hardware call succeeding (and well-formed file
contents: distinct channel names, digital clock datasets nonempty, analog
data arrays nonempty), a channel's encoded data is transmitted if and only
if `fresh_program` is true or it differs from the channel's cache entry
(a missing entry differs from everything); and after a successful run, a
rerun with the same data and `fresh_program = false` transmits nothing. -/
theorem C4_transmit_iff (pcOk adOk : String → Bool)
    (clocks : List (String × List (ℤ × ℤ)))
    (analog_data : List (String × List ℚ))
    (limits : List (String × (ℚ × ℚ))) (fresh : Bool) (cache : SmartCache)
    (hpc : ∀ ch, pcOk ch = true) (had : ∀ ch, adOk ch = true)
    (hndC : (clocks.map Prod.fst).Nodup)
    (hndA : (analog_data.map Prod.fst).Nodup)
    (hdig : ∀ o c, (o, c) ∈ clocks → dictGet analog_data o = none → c ≠ [])
    (hdat : ∀ o d, (o, d) ∈ analog_data → d ≠ []) :
    ∃ cacheA sendsA finalA,
      transition_to_buffered pcOk adOk clocks analog_data limits fresh
          cache = (cacheA, sendsA, .ok finalA) ∧
      (∀ o c, (o, c) ∈ clocks →
        ((∃ j, SendEvent.pseudoclock j o c ∈ sendsA) ↔
          (fresh = true ∨ dictGet cache.clocks o ≠ some c))) ∧
      (∀ o d, (o, d) ∈ analog_data →
        ((∃ j mn mx, SendEvent.analogData j o mn mx d ∈ sendsA) ↔
          (fresh = true ∨ dictGet cache.data o ≠ some d))) ∧
      (transition_to_buffered pcOk adOk clocks analog_data limits false
        cacheA).2.1 = [] := by
  obtain ⟨c1, nS1, f1, e1, i1, s1, ent1, un1, dat1⟩ :=
    runClocksLoop_ok pcOk fresh analog_data hpc clocks 0 cache [] []
      hndC hdig
  obtain ⟨c2, nS2, f2, e2, i2, s2, ent2, un2, clk2⟩ :=
    runAnalogLoop_ok adOk fresh limits had analog_data 0 c1 f1 ([] ++ nS1)
      hndA hdat
  have htrans : transition_to_buffered pcOk adOk clocks analog_data limits
      fresh cache = (c2, ([] ++ nS1) ++ nS2, .ok f2) := by
    simp only [transition_to_buffered]
    rw [e1]
    exact e2
  refine ⟨c2, nS1 ++ nS2, f2, by simpa using htrans, ?_, ?_, ?_⟩
  · intro o c hmem
    have hiff := i1 o c hmem
    constructor
    · rintro ⟨j, hj⟩
      rcases List.mem_append.mp hj with hj1 | hj2
      · exact hiff.mp ⟨j, hj1⟩
      · obtain ⟨_, _, _, _, _, heq', _, _⟩ := s2 _ hj2
        exact absurd heq' (by simp)
    · intro hdd
      obtain ⟨j, hj⟩ := hiff.mpr hdd
      exact ⟨j, List.mem_append.mpr (Or.inl hj)⟩
  · intro o d hmem
    have hiff := i2 o d hmem
    rw [dat1] at hiff
    constructor
    · rintro ⟨j, mn, mx, hj⟩
      rcases List.mem_append.mp hj with hj1 | hj2
      · obtain ⟨_, _, _, heq', _, _⟩ := s1 _ hj1
        exact absurd heq' (by simp)
      · exact hiff.mp ⟨j, mn, mx, hj2⟩
    · intro hdd
      obtain ⟨j, mn, mx, hj⟩ := hiff.mpr hdd
      exact ⟨j, mn, mx, List.mem_append.mpr (Or.inr hj)⟩
  · obtain ⟨c1', nS1', f1', e1', i1', s1', ent1', un1', dat1'⟩ :=
      runClocksLoop_ok pcOk false analog_data hpc clocks 0 c2 [] []
        hndC hdig
    have hnS1' : nS1' = [] := by
      rw [List.eq_nil_iff_forall_not_mem]
      intro e he
      obtain ⟨j, o', c', rfl, hmem', hdec'⟩ := s1' _ he
      rcases hdec' with h | h
      · exact absurd h (by simp)
      · apply h
        rw [clk2]
        exact ent1 o' c' hmem'
    obtain ⟨c2', nS2', f2', e2', i2', s2', ent2', un2', clk2'⟩ :=
      runAnalogLoop_ok adOk false limits had analog_data 0 c1' f1'
        ([] ++ nS1') hndA hdat
    have hnS2' : nS2' = [] := by
      rw [List.eq_nil_iff_forall_not_mem]
      intro e he
      obtain ⟨j, o', mn, mx, d', rfl, hmem', hdec'⟩ := s2' _ he
      rcases hdec' with h | h
      · exact absurd h (by simp)
      · apply h
        rw [dat1']
        exact ent2 o' d' hmem'
    have htrans' : transition_to_buffered pcOk adOk clocks analog_data
        limits false c2 = (c2', ([] ++ nS1') ++ nS2', .ok f2') := by
      simp only [transition_to_buffered]
      rw [e1']
      exact e2'
    rw [htrans']
    simp [hnS1', hnS2']

/-- C4 witness: a concrete first run (fresh, empty cache) transmitting
one digital and one analog channel, after which the rerun is silent. -/
theorem C4_witness :
    (([("digital 0", [(0, 1)])].map
        (Prod.fst (β := List (ℤ × ℤ)))).Nodup) ∧
    (([("analog 0", [(0 : ℚ)])].map
        (Prod.fst (β := List ℚ))).Nodup) ∧
    (∀ o c, (o, c) ∈ [("digital 0", [(0, 1)])] →
      dictGet [("analog 0", [(0 : ℚ)])] o = none → c ≠ []) ∧
    (∀ o d, (o, d) ∈ [("analog 0", [(0 : ℚ)])] → d ≠ []) ∧
    (∃ cacheA sendsA finalA,
      transition_to_buffered (fun _ => true) (fun _ => true)
          [("digital 0", [(0, 1)])] [("analog 0", [(0 : ℚ)])] [] true
          ⟨[], []⟩ = (cacheA, sendsA, .ok finalA) ∧
      (∀ o c, (o, c) ∈ [("digital 0", [(0, 1)])] →
        ((∃ j, SendEvent.pseudoclock j o c ∈ sendsA) ↔
          (true = true ∨
            dictGet (SmartCache.mk [] []).clocks o ≠ some c))) ∧
      (∀ o d, (o, d) ∈ [("analog 0", [(0 : ℚ)])] →
        ((∃ j mn mx, SendEvent.analogData j o mn mx d ∈ sendsA) ↔
          (true = true ∨
            dictGet (SmartCache.mk [] []).data o ≠ some d))) ∧
      (transition_to_buffered (fun _ => true) (fun _ => true)
        [("digital 0", [(0, 1)])] [("analog 0", [(0 : ℚ)])] [] false
        cacheA).2.1 = []) :=
  ⟨by simp, by simp,
    by
      intro o c hm _
      simp only [List.mem_singleton, Prod.mk.injEq] at hm
      obtain ⟨rfl, rfl⟩ := hm
      simp,
    by
      intro o d hm
      simp only [List.mem_singleton, Prod.mk.injEq] at hm
      obtain ⟨rfl, rfl⟩ := hm
      simp,
    C4_transmit_iff _ _ _ _ _ _ _ (fun _ => rfl) (fun _ => rfl) (by simp)
      (by simp)
      (by
        intro o c hm _
        simp only [List.mem_singleton, Prod.mk.injEq] at hm
        obtain ⟨rfl, rfl⟩ := hm
        simp)
      (by
        intro o d hm
        simp only [List.mem_singleton, Prod.mk.injEq] at hm
        obtain ⟨rfl, rfl⟩ := hm
        simp)⟩

/-- C9: attaching an output to a fresh `OutputIntermediateDevice` succeeds
if and only if its connection string is exactly two space-separated tokens
whose first is `"analog"` or `"digital"` and whose second parses as an
integer; every malformed id is rejected with an error at attachment time.
In particular `"digital 3"` and `"analog 0"` are accepted while
`"analogue 0"` and `"digital"` are rejected. -/
theorem C9_connection_validation (st : OIDState)
    (device_name connection : String) (h : st.child_devices = []) :
    (∃ st', add_device st device_name connection = .ok st') ↔
      validChannelId connection = true := by
  simp only [add_device, validChannelId, h]
  simp only [ne_eq, not_true_eq_false, if_false, ite_false]
  rcases hs : pySplit ' ' connection with _ | ⟨a, _ | ⟨b, _ | ⟨c, tl⟩⟩⟩
  · simp
  · simp
  · by_cases hk : a = "analog" ∨ a = "digital"
    · rcases hp : pyParseInt b with _ | n
      · simp [hp, hk]
      · simp [hp, hk]
    · have hk1 : a ≠ "analog" := fun hh => hk (Or.inl hh)
      have hk2 : a ≠ "digital" := fun hh => hk (Or.inr hh)
      simp [hk1, hk2]
  · simp

/-- C9 witness: a concrete fresh device accepting `"digital 3"`. -/
theorem C9_witness :
    (OIDState.mk [] none).child_devices = [] ∧
      ((∃ st', add_device ⟨[], none⟩ "digi0" "digital 3" = .ok st') ↔
        validChannelId "digital 3" = true) :=
  ⟨rfl, C9_connection_validation _ _ _ rfl⟩

end FPGADevice
